import Mathlib

/-!
Formal verification of the numerical estimation core documented in
`docs/background.rst` of the pyblp repository: the share engine
(logit, nested logit, random coefficients), the delta contraction,
the zeta price contraction, the GMM objective and gradient, weighting
and covariance matrices, micro moments, and fixed-effect absorption.

Every definition is a shallow embedding of a displayed equation of
`docs/background.rst` (equation labels are cited in the doc comments),
except where a definition's doc comment starts with
`Modelled from the spec:`, which marks a part of the program whose
implementation is not among the provided sources.
-/

open Matrix Finset

noncomputable section

namespace Pyblp

/-! ## Share engine (eqs. `utilities`, `shares`, `probabilities`) -/

/-- The agent-specific portion of utility in one market,
`mu = X2 (Sigma nu' + Pi d')` (display below eq. `utilities`).
`Sg` is the upper-triangular scaling matrix Sigma, `Pd` is the
demographic-interaction matrix Pi, `nu` the unobserved draws and `d`
the demographics. -/
def mu {J K2 D I : ℕ} (X2 : Matrix (Fin J) (Fin K2) ℝ) (Sg : Matrix (Fin K2) (Fin K2) ℝ)
    (Pd : Matrix (Fin K2) (Fin D) ℝ) (nu : Matrix (Fin I) (Fin K2) ℝ)
    (d : Matrix (Fin I) (Fin D) ℝ) : Matrix (Fin J) (Fin I) ℝ :=
  X2 * (Sg * nuᵀ + Pd * dᵀ)

/-- Agent-specific utilities `V_jti = delta_jt + mu_jti` (eq. `utilities`). -/
def utilities {J I : ℕ} (δ : Fin J → ℝ) (μm : Matrix (Fin J) (Fin I) ℝ) :
    Fin J → Fin I → ℝ :=
  fun j i => δ j + μm j i

/-- Choice probability of agent `i` for product `j`,
`s_jti = exp V_jti / (1 + ∑_k exp V_kti)` (eq. `probabilities`). -/
def probabilities {J I : ℕ} (V : Fin J → Fin I → ℝ) (j : Fin J) (i : Fin I) : ℝ :=
  Real.exp (V j i) / (1 + ∑ k, Real.exp (V k i))

/-- Aggregate market shares `s_jt = ∑_i w_it s_jti` (eq. `shares`). -/
def shares {J I : ℕ} (w : Fin I → ℝ) (V : Fin J → Fin I → ℝ) (j : Fin J) : ℝ :=
  ∑ i, w i * probabilities V j i

/-- Closed-form logit mean utilities `delta_jt = log s_jt - log s_0t`
(eq. `logit_delta`), with the outside share `s_0t = 1 - ∑_j s_jt`. -/
def logit_delta {J : ℕ} (s : Fin J → ℝ) : Fin J → ℝ :=
  fun j => Real.log (s j) - Real.log (1 - ∑ k, s k)

/-! ## Nested logit share engine (eqs. `nested_probabilities`, `inclusive_value`) -/

/-- Group inclusive values
`V_hti = (1 - rho_h) log ∑_{k in J_ht} exp (V_kti / (1 - rho_h))`
(eq. `inclusive_value`). -/
def inclusive_value {J H I : ℕ} (ρ : Fin H → ℝ) (grp : Fin J → Fin H)
    (V : Fin J → Fin I → ℝ) (h : Fin H) (i : Fin I) : ℝ :=
  (1 - ρ h) * Real.log (∑ k ∈ Finset.univ.filter (fun k => grp k = h),
    Real.exp (V k i / (1 - ρ h)))

/-- Nested-logit choice probabilities (eq. `nested_probabilities`):
`s_jti = exp[V_jti/(1-rho_h(j))] / exp[V_h(j)ti/(1-rho_h(j))]
  · exp V_h(j)ti / (1 + ∑_h exp V_hti)`. -/
def nested_probabilities {J H I : ℕ} (ρ : Fin H → ℝ) (grp : Fin J → Fin H)
    (V : Fin J → Fin I → ℝ) (j : Fin J) (i : Fin I) : ℝ :=
  Real.exp (V j i / (1 - ρ (grp j))) /
      Real.exp (inclusive_value ρ grp V (grp j) i / (1 - ρ (grp j))) *
    (Real.exp (inclusive_value ρ grp V (grp j) i) /
      (1 + ∑ h, Real.exp (inclusive_value ρ grp V h i)))

/-- Error kinds of the estimation core (spec §7): `DomainError` covers
`rho_h` outside `(0, 1)` and related division-by-zero conditions. -/
inductive BlpError
  | DomainError
  | SingularMatrix
  | NonConvergence

/-- Modelled from the spec: the Share Engine implementation itself is not
among the provided sources (only `docs/background.rst` is), so its
domain check on the nesting parameters is modelled from the spec's words:
"at rho_h exactly 1, the engine raises DomainError, never NaN" and
"rho_h outside (0,1) causing division by zero in nesting formulas" is
"reported distinctly".  The nesting parameters are taken as exact
rationals so that the guard is decidable; the computed shares follow
eqs. `shares`, `nested_probabilities` and `inclusive_value`. -/
def nested_shares_checked {J H I : ℕ} (ρq : Fin H → ℚ) (grp : Fin J → Fin H)
    (w : Fin I → ℝ) (V : Fin J → Fin I → ℝ) : Except BlpError (Fin J → ℝ) :=
  if ∀ h, 0 < ρq h ∧ ρq h < 1 then
    .ok (fun j => ∑ i, w i * nested_probabilities (fun h => (ρq h : ℝ)) grp V j i)
  else
    .error .DomainError

/-! ## Delta solver (eqs. `contraction`, `nested_contraction`) -/

/-- One contraction increment `log s_jt - log s_jt(delta, theta)`
(eq. `contraction`), with `sObs` the observed shares and `sPred` the
share engine as a function of `delta`. -/
def contraction_update {J : ℕ} (sObs : Fin J → ℝ) (sPred : (Fin J → ℝ) → Fin J → ℝ)
    (δ : Fin J → ℝ) : Fin J → ℝ :=
  fun j => Real.log (sObs j) - Real.log (sPred δ j)

/-- The nested-variant increment
`(1 - rho_h(j)) [log s_jt - log s_jt(delta, theta)]` (eq. `nested_contraction`). -/
def nested_contraction_update {J H : ℕ} (ρ : Fin H → ℝ) (grp : Fin J → Fin H)
    (sObs : Fin J → ℝ) (sPred : (Fin J → ℝ) → Fin J → ℝ) (δ : Fin J → ℝ) : Fin J → ℝ :=
  fun j => (1 - ρ (grp j)) * (Real.log (sObs j) - Real.log (sPred δ j))

/-- One step of the fixed-point iteration `delta ← delta + upd delta`. -/
def contraction_step {J : ℕ} (upd : (Fin J → ℝ) → Fin J → ℝ) (δ : Fin J → ℝ) :
    Fin J → ℝ :=
  fun j => δ j + upd δ j

/-- The delta solver: iterate `delta ← delta + upd delta` and terminate
as soon as the norm of the increment is below the tolerance
("Iteration terminates when the norm of the change in delta is less than
a small number").  `none` signals non-convergence within the iteration
budget.  The norm on `Fin J → ℝ` is the sup (infinity) norm. -/
def delta_solver {J : ℕ} (upd : (Fin J → ℝ) → Fin J → ℝ) (tol : ℝ) :
    ℕ → (Fin J → ℝ) → Option (Fin J → ℝ)
  | 0, _ => none
  | fuel + 1, δ =>
    if ‖upd δ‖ < tol then some (contraction_step upd δ)
    else delta_solver upd tol fuel (contraction_step upd δ)

/-- The sequence of contraction iterates from a starting point. -/
def delta_orbit {J : ℕ} (upd : (Fin J → ℝ) → Fin J → ℝ) (δ0 : Fin J → ℝ) (n : ℕ) :
    Fin J → ℝ :=
  (contraction_step upd)^[n] δ0

/-! ## Price solver (eq. `zeta` and the displays around it) -/

/-- The diagonal matrix `Λ_jj = ∑_i w_it s_jti ∂U_jti/∂p_jt`
(display below eq. `zeta`). -/
def Lambda_mat {J I : ℕ} (w : Fin I → ℝ) (sp : Fin J → Fin I → ℝ)
    (dU : Fin J → Fin I → ℝ) : Matrix (Fin J) (Fin J) ℝ :=
  Matrix.diagonal (fun j => ∑ i, w i * sp j i * dU j i)

/-- The dense matrix `Γ_jk = ∑_i w_it s_jti s_kti ∂U_jti/∂p_jt`
(display below eq. `zeta`). -/
def Gamma_mat {J I : ℕ} (w : Fin I → ℝ) (sp : Fin J → Fin I → ℝ)
    (dU : Fin J → Fin I → ℝ) : Matrix (Fin J) (Fin J) ℝ :=
  Matrix.of fun j k => ∑ i, w i * sp j i * sp k i * dU j i

/-- Modelled from the spec: the markup `ζ = Λ⁻¹ (O ⊙ Γ)ᵀ (p - c) - Λ⁻¹ s`
of the zeta contraction.  The corresponding display in
`docs/background.rst` (eq. `zeta`) omits the trailing share vector `s`,
writing `ζ = Λ⁻¹(O ⊙ Γ)'(p − c) − Λ⁻¹`, which is not well formed (a
`J × J` matrix subtracted from a `J`-vector); the spec's formula with
`− Λ⁻¹ s` is used here. -/
def zeta {J : ℕ} (Λm Γm Om : Matrix (Fin J) (Fin J) ℝ) (s c p : Fin J → ℝ) :
    Fin J → ℝ :=
  Λm⁻¹.mulVec ((Om ⊙ Γm)ᵀ.mulVec (p - c)) - Λm⁻¹.mulVec s

/-- Concrete one-product, one-agent market data: agent weight `1`. -/
def exw : Fin 1 → ℝ := fun _ => 1

/-- Concrete one-product, one-agent market data: choice probability `1`. -/
def exsp : Fin 1 → Fin 1 → ℝ := fun _ _ => 1

/-- Concrete one-product, one-agent market data: utility-price
derivative `-1`. -/
def exdU : Fin 1 → Fin 1 → ℝ := fun _ _ => -1

/-! ## Weighting matrices (eqs. `robust_S`, `clustered_S`) -/

/-- The heteroscedasticity-robust estimator `S = (1/N) ∑_{j,t} g_jt g_jt'`
(eq. `robust_S`), with `g j` the `M`-vector of moment observations of
product observation `j`. -/
def robust_S {N M : ℕ} (g : Fin N → Fin M → ℝ) : Matrix (Fin M) (Fin M) ℝ :=
  Matrix.of fun a b => (N : ℝ)⁻¹ * ∑ j, g j a * g j b

/-- The moment sum `g_c = ∑_{j ∈ J_c} g_jt` of cluster `c` (display below
eq. `clustered_S`), with `cl` the cluster assignment of each product. -/
def cluster_sum {N M C : ℕ} (cl : Fin N → Fin C) (g : Fin N → Fin M → ℝ)
    (c : Fin C) : Fin M → ℝ :=
  fun a => ∑ j ∈ Finset.univ.filter (fun j => cl j = c), g j a

/-- The clustered estimator `S = (1/N) ∑_c g_c g_c'` (eq. `clustered_S`). -/
def clustered_S {N M C : ℕ} (cl : Fin N → Fin C) (g : Fin N → Fin M → ℝ) :
    Matrix (Fin M) (Fin M) ℝ :=
  Matrix.of fun a b => (N : ℝ)⁻¹ * ∑ c, cluster_sum cl g c a * cluster_sum cl g c b

/-! ## Standard errors (eqs. `covariances`, `unadjusted_covariances`) -/

/-- The sandwich parameter covariance
`Var(theta) = (G'WG)⁻¹ G'WSWG (G'WG)⁻¹` (eq. `covariances`). -/
def covariances {M P : ℕ} (G : Matrix (Fin M) (Fin P) ℝ) (W S : Matrix (Fin M) (Fin M) ℝ) :
    Matrix (Fin P) (Fin P) ℝ :=
  (Gᵀ * W * G)⁻¹ * (Gᵀ * W * S * W * G) * (Gᵀ * W * G)⁻¹

/-- Standard errors: "the square root of the diagonal of this matrix
divided by N" (text below eq. `covariances`). -/
def standard_errors {P : ℕ} (N : ℕ) (Var : Matrix (Fin P) (Fin P) ℝ) : Fin P → ℝ :=
  fun p => Real.sqrt (Var p p / N)

/-! ## Micro moments (eqs. `averaged_micro_moments`,
`averaged_micro_moment_covariances`).  Market `t` has `It t` agents with
integration weights `w t`; micro moment `m` has the set `Tm m` of markets
in which its micro data are relevant and agent-level values `gM m`. -/

/-- The per-market weighted mean `ḡ_{M,mt} = ∑_i w_it g_{M,mti}`
(display below eq. `averaged_micro_moment_covariances`). -/
def micro_market_mean {T : ℕ} {It : Fin T → ℕ} (w : (t : Fin T) → Fin (It t) → ℝ)
    (gm : (t : Fin T) → Fin (It t) → ℝ) (t : Fin T) : ℝ :=
  ∑ i, w t i * gm t i

/-- The averaged micro moment
`ḡ_{M,m} = (1/|T_m|) ∑_{t ∈ T_m} ∑_i w_it g_{M,mti}`
(eq. `averaged_micro_moments`). -/
def averaged_micro_moments {T MM : ℕ} {It : Fin T → ℕ} (Tm : Fin MM → Finset (Fin T))
    (w : (t : Fin T) → Fin (It t) → ℝ)
    (gM : Fin MM → (t : Fin T) → Fin (It t) → ℝ) (m : Fin MM) : ℝ :=
  ((Tm m).card : ℝ)⁻¹ * ∑ t ∈ Tm m, micro_market_mean w (gM m) t

/-- The micro-moment block of `S`: the covariance of micro moments `m`
and `n` is zero when `T_m ∩ T_n = ∅` and otherwise is
`(1/|T_mn|) ∑_{t ∈ T_mn} ∑_i w_it (g_mti - ḡ_mt)(g_nti - ḡ_nt)`
(eq. `averaged_micro_moment_covariances`). -/
def averaged_micro_moment_covariances {T MM : ℕ} {It : Fin T → ℕ}
    (Tm : Fin MM → Finset (Fin T)) (w : (t : Fin T) → Fin (It t) → ℝ)
    (gM : Fin MM → (t : Fin T) → Fin (It t) → ℝ) (m n : Fin MM) : ℝ :=
  if Tm m ∩ Tm n = ∅ then 0
  else ((Tm m ∩ Tm n).card : ℝ)⁻¹ * ∑ t ∈ Tm m ∩ Tm n, ∑ i, w t i *
    (gM m t i - micro_market_mean w (gM m) t) * (gM n t i - micro_market_mean w (gM n) t)

/-! ## GMM objective and gradient (eqs. `objective`, `averaged_moments`,
`gradient`, `averaged_moments_jacobian`).  The structural errors `xi` and
`omega` are functions of the `P`-vector `theta`; their `theta`-Jacobians
enter the stacked moment Jacobian. -/

/-- A gradient vector `g` viewed as the continuous linear functional
`v ↦ g ⬝ᵥ v` on `theta`-space. -/
def dotL {P : ℕ} (g : Fin P → ℝ) : (Fin P → ℝ) →ₗ[ℝ] ℝ where
  toFun v := g ⬝ᵥ v
  map_add' u v := dotProduct_add g u v
  map_smul' r v := by simp [dotProduct_smul]

/-- The continuous version of `dotL` (finite dimensions). -/
def dotCLM {P : ℕ} (g : Fin P → ℝ) : (Fin P → ℝ) →L[ℝ] ℝ :=
  LinearMap.toContinuousLinearMap (dotL g)

/-- A matrix `G` viewed as the continuous linear map `v ↦ G *ᵥ v`; used
to state that `G` is the Jacobian of a map of `theta`. -/
def matCLM {M : Type*} [Fintype M] {p : ℕ} (G : Matrix M (Fin p) ℝ) :
    (Fin p → ℝ) →L[ℝ] (M → ℝ) :=
  LinearMap.toContinuousLinearMap (Matrix.mulVecLin G)

/-- The stacked averaged moments
`ḡ = (1/N) [∑_{j,t} Z_D'ξ_jt ; ∑_{j,t} Z_S'ω_jt]`
(eq. `averaged_moments`), as a function of `theta` through the structural
errors `ξ(theta)` and `ω(theta)`. -/
def averaged_moments {Nn MD MS P : ℕ} (ZD : Matrix (Fin Nn) (Fin MD) ℝ)
    (ZS : Matrix (Fin Nn) (Fin MS) ℝ) (ξf ωf : (Fin P → ℝ) → Fin Nn → ℝ)
    (θ : Fin P → ℝ) : Fin MD ⊕ Fin MS → ℝ :=
  Sum.elim ((Nn : ℝ)⁻¹ • ZDᵀ.mulVec (ξf θ)) ((Nn : ℝ)⁻¹ • ZSᵀ.mulVec (ωf θ))

/-- The stacked averaged moment Jacobian
`Ḡ = (1/N) [∑ Z_D'∂ξ/∂θ ; ∑ Z_S'∂ω/∂θ]` (eq. `averaged_moments_jacobian`). -/
def averaged_moments_jacobian {Nn MD MS P : ℕ} (ZD : Matrix (Fin Nn) (Fin MD) ℝ)
    (ZS : Matrix (Fin Nn) (Fin MS) ℝ) (Jξ Jω : Matrix (Fin Nn) (Fin P) ℝ) :
    Matrix (Fin MD ⊕ Fin MS) (Fin P) ℝ :=
  Matrix.fromRows ((Nn : ℝ)⁻¹ • (ZDᵀ * Jξ)) ((Nn : ℝ)⁻¹ • (ZSᵀ * Jω))

/-- The linear gluing map behind `averaged_moments`: it sends the pair of
error vectors to the stacked weighted instrument sums. -/
def stack_moments_L {Nn MD MS : ℕ} (a : ℝ) (ZD : Matrix (Fin Nn) (Fin MD) ℝ)
    (ZS : Matrix (Fin Nn) (Fin MS) ℝ) :
    ((Fin Nn → ℝ) × (Fin Nn → ℝ)) →ₗ[ℝ] (Fin MD ⊕ Fin MS → ℝ) where
  toFun x := Sum.elim (a • ZDᵀ.mulVec x.1) (a • ZSᵀ.mulVec x.2)
  map_add' x y := by
    funext mm
    cases mm with
    | inl m => simp [Matrix.mulVec_add, smul_add]
    | inr m => simp [Matrix.mulVec_add, smul_add]
  map_smul' r x := by
    funext mm
    cases mm with
    | inl m =>
      simp only [Prod.smul_fst, Matrix.mulVec_smul, Sum.elim_inl, Pi.smul_apply,
        smul_eq_mul, RingHom.id_apply]
      ring
    | inr m =>
      simp only [Prod.smul_snd, Matrix.mulVec_smul, Sum.elim_inr, Pi.smul_apply,
        smul_eq_mul, RingHom.id_apply]
      ring

/-- The continuous version of `stack_moments_L`. -/
def stack_moments_CLM {Nn MD MS : ℕ} (a : ℝ) (ZD : Matrix (Fin Nn) (Fin MD) ℝ)
    (ZS : Matrix (Fin Nn) (Fin MS) ℝ) :
    ((Fin Nn → ℝ) × (Fin Nn → ℝ)) →L[ℝ] (Fin MD ⊕ Fin MS → ℝ) :=
  LinearMap.toContinuousLinearMap (stack_moments_L a ZD ZS)

/-- The scaled GMM objective `q(theta) = N² ḡ(theta)' W ḡ(theta)`
(eq. `objective`). -/
def objective {P : ℕ} {M : Type*} [Fintype M] (Nn : ℕ) (W : Matrix M M ℝ)
    (gbar : (Fin P → ℝ) → M → ℝ) (θ : Fin P → ℝ) : ℝ :=
  (Nn : ℝ) ^ 2 * (gbar θ ⬝ᵥ W.mulVec (gbar θ))

/-- The documented gradient `∇q(theta) = 2N² Ḡ(theta)' W ḡ(theta)`
(eq. `gradient`). -/
def gradient {P : ℕ} {M : Type*} [Fintype M] (Nn : ℕ) (W : Matrix M M ℝ)
    (gbar : (Fin P → ℝ) → M → ℝ) (Gbar : Matrix M (Fin P) ℝ) (θ : Fin P → ℝ) :
    Fin P → ℝ :=
  (2 * (Nn : ℝ) ^ 2) • Gbarᵀ.mulVec (W.mulVec (gbar θ))

/-! ## Fixed-effect absorption (section "Fixed Effects"; eqs. `fe`, `iv`) -/

/-- The closed-form linear IV-GMM estimates `(X'ZWZ'X)⁻¹ X'ZWZ'Y` of
eq. `iv`, generic in the column and instrument index types so that
dummy-augmented design matrices can be passed. -/
def iv_gmm {N : ℕ} {κ μ : Type*} [Fintype κ] [DecidableEq κ] [Fintype μ]
    (X : Matrix (Fin N) κ ℝ) (Z : Matrix (Fin N) μ ℝ) (W : Matrix μ μ ℝ)
    (Y : Fin N → ℝ) : κ → ℝ :=
  ((Xᵀ * Z * W * Zᵀ * X)⁻¹ * (Xᵀ * Z * W * Zᵀ)).mulVec Y

/-- The number of observations in a fixed-effect level. -/
def fe_count {N L : ℕ} (lev : Fin N → Fin L) (l : Fin L) : ℕ :=
  (Finset.univ.filter (fun n => lev n = l)).card

/-- Within-level de-meaning of a vector: "the matrices are simply
de-meaned within each level of the fixed effect". -/
def demean {N L : ℕ} (lev : Fin N → Fin L) (v : Fin N → ℝ) : Fin N → ℝ :=
  fun n => v n -
    (∑ m ∈ Finset.univ.filter (fun m => lev m = lev n), v m) / fe_count lev (lev n)

/-- Column-wise within-level de-meaning of a matrix. -/
def demean_cols {N L K : ℕ} (lev : Fin N → Fin L) (A : Matrix (Fin N) (Fin K) ℝ) :
    Matrix (Fin N) (Fin K) ℝ :=
  Matrix.of fun n k => demean lev (fun m => A m k) n

/-- The dummy-variable matrix of a fixed effect: one indicator column
per level ("fixed effects can be estimated with dummy variables"). -/
def fe_dummies {N L : ℕ} (lev : Fin N → Fin L) : Matrix (Fin N) (Fin L) ℝ :=
  Matrix.of fun n l => if lev n = l then 1 else 0

/-- The least-squares projection matrix `D (D'D)⁻¹ D'` onto the column
span of `D`. -/
def proj_mat {N : ℕ} {κ : Type*} [Fintype κ] [DecidableEq κ]
    (D : Matrix (Fin N) κ ℝ) : Matrix (Fin N) (Fin N) ℝ :=
  D * (Dᵀ * D)⁻¹ * Dᵀ

/-- The residual-maker (annihilator) matrix `1 - D (D'D)⁻¹ D'`:
replacing a column by `annih D * column` is regressing it on `D` and
keeping the residuals. -/
def annih {N : ℕ} {κ : Type*} [Fintype κ] [DecidableEq κ]
    (D : Matrix (Fin N) κ ℝ) : Matrix (Fin N) (Fin N) ℝ :=
  1 - proj_mat D

/-- Concrete two-observation data: a single fixed-effect level. -/
def exlev : Fin 2 → Fin 1 := fun _ => 0

/-- Concrete two-observation data: a single mean-zero column serving as
both the design matrix and the instrument matrix. -/
def exX : Matrix (Fin 2) (Fin 1) ℝ := Matrix.of ![![1], ![-1]]

/-- Concrete two-observation data: the outcome vector. -/
def exY : Fin 2 → ℝ := fun _ => 1

end Pyblp

namespace Pyblp

/-! ## Theorems -/

/-- Helper: a cluster sum over singleton clusters is the single observation. -/
theorem cluster_sum_id {N M : ℕ} (g : Fin N → Fin M → ℝ) (c : Fin N) :
    cluster_sum id g c = g c := by
  funext a
  unfold cluster_sum
  simp [Finset.filter_eq']

/-- C8 (counterexample): with `N = 2` products, both with scalar moment `1`,
the clustered `S` with a single all-encompassing cluster is `2`, while the
robust `S` is `1`; so the two formulas `(1/N) ∑ g g'` and `(1/N)(∑g)(∑g)'`
do not agree at this boundary configuration. -/
theorem clustered_one_cluster_ne_robust :
    clustered_S (fun _ : Fin 2 => (0 : Fin 1)) (fun _ _ => (1 : ℝ)) ≠
      robust_S (fun _ : Fin 2 => fun _ : Fin 1 => (1 : ℝ)) := by
  intro hEq
  have h := congrFun (congrFun hEq 0) 0
  simp only [clustered_S, robust_S, cluster_sum, Matrix.of_apply] at h
  norm_num [Fin.sum_univ_succ, Finset.filter_true_of_mem] at h

/-- C8 (amended): the true boundary relation between eq. `robust_S` and
eq. `clustered_S` is that the clustered estimator with each product in its
own singleton cluster coincides with the robust estimator, for every
sample of moment observations. -/
theorem clustered_singletons_eq_robust {N M : ℕ} (g : Fin N → Fin M → ℝ) :
    clustered_S id g = robust_S g := by
  funext a b
  simp only [clustered_S, robust_S, Matrix.of_apply, cluster_sum_id]

/-- C9: when the weighting matrix was chosen such that `W = S⁻¹` exactly
(with `S` invertible) and `G'WG` is invertible, the sandwich covariance
`(G'WG)⁻¹ G'WSWG (G'WG)⁻¹` of eq. `covariances` collapses to `(G'WG)⁻¹`
(eq. `unadjusted_covariances`), and the reported standard errors are the
entrywise `sqrt(diag((G'WG)⁻¹)/N)`. -/
theorem covariances_unadjusted {M P : ℕ} (N : ℕ) (G : Matrix (Fin M) (Fin P) ℝ)
    (W S : Matrix (Fin M) (Fin M) ℝ) (hS : IsUnit S.det) (hW : W = S⁻¹)
    (hA : IsUnit (Gᵀ * W * G).det) :
    covariances G W S = (Gᵀ * W * G)⁻¹ ∧
      standard_errors N (covariances G W S) =
        fun p => Real.sqrt ((Gᵀ * W * G)⁻¹ p p / N) := by
  have hWSW : W * S * W = W := by
    rw [hW, Matrix.nonsing_inv_mul S hS, Matrix.one_mul]
  have hmid : Gᵀ * W * S * W * G = Gᵀ * W * G := by
    calc Gᵀ * W * S * W * G = Gᵀ * (W * S * W) * G := by
          simp only [Matrix.mul_assoc]
      _ = Gᵀ * W * G := by rw [hWSW, Matrix.mul_assoc]
  have hcov : covariances G W S = (Gᵀ * W * G)⁻¹ := by
    unfold covariances
    rw [hmid, Matrix.nonsing_inv_mul (Gᵀ * W * G) hA, Matrix.one_mul]
  exact ⟨hcov, by rw [hcov]; rfl⟩

/-- C9 (witness): the simplification holds at the concrete configuration
`G = W = S = 1` (sizes 1×1) with `N = 1`. -/
theorem covariances_unadjusted_witness :
    IsUnit (1 : Matrix (Fin 1) (Fin 1) ℝ).det ∧
      IsUnit ((1 : Matrix (Fin 1) (Fin 1) ℝ)ᵀ * 1 * 1).det ∧
      covariances (1 : Matrix (Fin 1) (Fin 1) ℝ) 1 1 =
        ((1 : Matrix (Fin 1) (Fin 1) ℝ)ᵀ * 1 * 1)⁻¹ := by
  have h1 : IsUnit (1 : Matrix (Fin 1) (Fin 1) ℝ).det := by
    simp
  have hW : (1 : Matrix (Fin 1) (Fin 1) ℝ) = (1 : Matrix (Fin 1) (Fin 1) ℝ)⁻¹ :=
    (Matrix.inv_eq_right_inv (by rw [Matrix.one_mul])).symm
  have h2 : IsUnit ((1 : Matrix (Fin 1) (Fin 1) ℝ)ᵀ * 1 * 1).det := by
    simp
  exact ⟨h1, h2, (covariances_unadjusted 1 1 1 1 h1 hW h2).1⟩

/-- C7: the micro-moment covariance entry of `S` is exactly zero when the
relevant market sets are disjoint; it depends only on the agent-level
moment values at markets in `T_m ∩ T_n` (it "averages only over the
intersection"); each averaged micro moment depends only on the values at
its own relevant markets `T_m`; and it equals the sum over `T_m` of the
agent-weighted market means divided by `|T_m|`. -/
theorem micro_moment_market_sets {T MM : ℕ} {It : Fin T → ℕ}
    (Tm : Fin MM → Finset (Fin T)) (w : (t : Fin T) → Fin (It t) → ℝ)
    (gM gM' : Fin MM → (t : Fin T) → Fin (It t) → ℝ) (m n : Fin MM) :
    (Tm m ∩ Tm n = ∅ → averaged_micro_moment_covariances Tm w gM m n = 0) ∧
    ((∀ t ∈ Tm m ∩ Tm n, ∀ i, gM m t i = gM' m t i ∧ gM n t i = gM' n t i) →
      averaged_micro_moment_covariances Tm w gM m n =
        averaged_micro_moment_covariances Tm w gM' m n) ∧
    ((∀ t ∈ Tm m, ∀ i, gM m t i = gM' m t i) →
      averaged_micro_moments Tm w gM m = averaged_micro_moments Tm w gM' m) ∧
    averaged_micro_moments Tm w gM m =
      ((Tm m).card : ℝ)⁻¹ * ∑ t ∈ Tm m, ∑ i, w t i * gM m t i := by
  refine ⟨fun hdisj => ?_, fun hagree => ?_, fun hagree => ?_, rfl⟩
  · unfold averaged_micro_moment_covariances
    rw [if_pos hdisj]
  · unfold averaged_micro_moment_covariances
    by_cases hdisj : Tm m ∩ Tm n = ∅
    · rw [if_pos hdisj, if_pos hdisj]
    · rw [if_neg hdisj, if_neg hdisj]
      congr 1
      refine Finset.sum_congr rfl fun t ht => Finset.sum_congr rfl fun i _ => ?_
      have hm : gM m t = gM' m t := funext fun i => (hagree t ht i).1
      have hn : gM n t = gM' n t := funext fun i => (hagree t ht i).2
      have hmean_m : micro_market_mean w (gM m) t = micro_market_mean w (gM' m) t := by
        unfold micro_market_mean
        rw [hm]
      have hmean_n : micro_market_mean w (gM n) t = micro_market_mean w (gM' n) t := by
        unfold micro_market_mean
        rw [hn]
      rw [hm, hn, hmean_m, hmean_n]
  · unfold averaged_micro_moments
    congr 1
    refine Finset.sum_congr rfl fun t ht => ?_
    unfold micro_market_mean
    refine Finset.sum_congr rfl fun i _ => ?_
    rw [hagree t ht i]

/-- C7 (witness): two micro moments whose relevant market sets are the
disjoint `{0}` and `{1}` (two markets, one agent each) have covariance
entry exactly zero. -/
theorem micro_moment_market_sets_witness :
    (![({0} : Finset (Fin 2)), {1}] 0 ∩ ![({0} : Finset (Fin 2)), {1}] 1 = ∅) ∧
      averaged_micro_moment_covariances ![({0} : Finset (Fin 2)), {1}]
        (fun (_ : Fin 2) (_ : Fin 1) => (1 : ℝ))
        (fun (_ : Fin 2) (_ : Fin 2) (_ : Fin 1) => (0 : ℝ)) 0 1 = 0 := by
  have hdisj : (![({0} : Finset (Fin 2)), {1}] 0 ∩ ![({0} : Finset (Fin 2)), {1}] 1 = ∅) := by
    decide
  exact ⟨hdisj,
    (micro_moment_market_sets ![{0}, {1}] (fun (_ : Fin 2) (_ : Fin 1) => (1 : ℝ))
      (fun _ _ _ => 0) (fun _ _ _ => 0) 0 1).1 hdisj⟩

/-- C6: the share engine's nesting-parameter guard.  If some `rho_h`
equals `1`, the checked nested-share computation returns the fatal
`DomainError` (rather than any share vector); if every `rho_h` lies
strictly inside `(0, 1)`, no error is raised and the nested-logit shares
of eqs. `shares`/`nested_probabilities` are returned. -/
theorem nested_rho_domain {J H I : ℕ} (ρq : Fin H → ℚ) (grp : Fin J → Fin H)
    (w : Fin I → ℝ) (V : Fin J → Fin I → ℝ) :
    ((∃ h, ρq h = 1) → nested_shares_checked ρq grp w V = .error .DomainError) ∧
    ((∀ h, 0 < ρq h ∧ ρq h < 1) →
      nested_shares_checked ρq grp w V =
        .ok (fun j => ∑ i, w i * nested_probabilities (fun h => (ρq h : ℝ)) grp V j i)) := by
  constructor
  · rintro ⟨h0, hh0⟩
    unfold nested_shares_checked
    rw [if_neg]
    intro hall
    exact absurd (hh0 ▸ (hall h0).2) (lt_irrefl 1)
  · intro hall
    unfold nested_shares_checked
    rw [if_pos hall]

/-- C6 (witness): with one nesting group, one product and one agent,
`rho = 1` yields `DomainError` while `rho = 1/2` yields a share vector. -/
theorem nested_rho_domain_witness :
    nested_shares_checked (fun _ : Fin 1 => (1 : ℚ)) (fun _ : Fin 1 => (0 : Fin 1))
        (fun _ : Fin 1 => (1 : ℝ)) (fun _ _ => 0) = .error .DomainError ∧
      nested_shares_checked (fun _ : Fin 1 => (1 / 2 : ℚ)) (fun _ : Fin 1 => (0 : Fin 1))
        (fun _ : Fin 1 => (1 : ℝ)) (fun _ _ => 0) =
        .ok (fun j => ∑ i : Fin 1, (1 : ℝ) * nested_probabilities
          (fun _ => ((1 / 2 : ℚ) : ℝ)) (fun _ => (0 : Fin 1)) (fun _ _ => (0 : ℝ)) j i) := by
  constructor
  · exact (nested_rho_domain _ _ _ _).1 ⟨0, rfl⟩
  · exact (nested_rho_domain _ _ _ _).2 (fun _ => by norm_num)

/-- Helper: the delta solver returns `some` exactly at the first iterate
whose increment has norm below the tolerance, and the returned point is
the next iterate. -/
theorem delta_solver_halting {J : ℕ} (upd : (Fin J → ℝ) → Fin J → ℝ) (tol : ℝ)
    (fuel : ℕ) (δ0 δs : Fin J → ℝ) :
    delta_solver upd tol fuel δ0 = some δs ↔
      ∃ n, n < fuel ∧ (∀ m, m < n → tol ≤ ‖upd (delta_orbit upd δ0 m)‖) ∧
        ‖upd (delta_orbit upd δ0 n)‖ < tol ∧ δs = delta_orbit upd δ0 (n + 1) := by
  induction fuel generalizing δ0 with
  | zero =>
    simp [delta_solver]
  | succ fuel ih =>
    have horbit : ∀ m, delta_orbit upd (contraction_step upd δ0) m =
        delta_orbit upd δ0 (m + 1) := by
      intro m
      unfold delta_orbit
      rw [Function.iterate_succ_apply]
    by_cases h : ‖upd δ0‖ < tol
    · simp only [delta_solver, if_pos h]
      constructor
      · intro hsome
        refine ⟨0, Nat.succ_pos fuel, fun m hm => absurd hm (Nat.not_lt_zero m), h, ?_⟩
        have := Option.some.inj hsome
        rw [← this]
        rfl
      · rintro ⟨n, _, hall, _, heq⟩
        have hn0 : n = 0 := by
          by_contra hne
          exact absurd (hall 0 (Nat.pos_of_ne_zero hne)) (not_le.mpr h)
        subst hn0
        rw [heq]
        rfl
    · simp only [delta_solver, if_neg h]
      rw [ih (contraction_step upd δ0)]
      constructor
      · rintro ⟨n, hlt, hall, hfin, heq⟩
        refine ⟨n + 1, Nat.succ_lt_succ hlt, ?_, ?_, ?_⟩
        · intro m hm
          cases m with
          | zero => exact not_lt.mp h
          | succ k =>
            rw [← horbit k]
            exact hall k (Nat.lt_of_succ_lt_succ hm)
        · rw [← horbit n]
          exact hfin
        · rw [heq, horbit]
      · rintro ⟨n, hlt, hall, hfin, heq⟩
        cases n with
        | zero => exact absurd hfin h
        | succ k =>
          refine ⟨k, Nat.lt_of_succ_lt_succ hlt, ?_, ?_, ?_⟩
          · intro m hm
            rw [horbit]
            exact hall (m + 1) (Nat.succ_lt_succ hm)
          · rw [horbit]
            exact hfin
          · rw [heq, horbit]

/-- C2: the Delta Solver.  Each iteration updates `delta` by
`delta ← delta + (log s_obs - log s_pred(delta))` (eq. `contraction`);
in the nested variant the increment of product `j` is scaled by
`(1 - rho_h(j))` (eq. `nested_contraction`); and for either variant (any
increment map) the solver halts with a point exactly when the norm of
the increment first falls below the configured tolerance, returning the
subsequent iterate. -/
theorem delta_solver_spec {J H : ℕ} (ρ : Fin H → ℝ) (grp : Fin J → Fin H)
    (sObs : Fin J → ℝ) (sPred : (Fin J → ℝ) → Fin J → ℝ) :
    (∀ δ j, contraction_step (contraction_update sObs sPred) δ j =
        δ j + (Real.log (sObs j) - Real.log (sPred δ j))) ∧
    (∀ δ j, contraction_step (nested_contraction_update ρ grp sObs sPred) δ j =
        δ j + (1 - ρ (grp j)) * (Real.log (sObs j) - Real.log (sPred δ j))) ∧
    (∀ (upd : (Fin J → ℝ) → Fin J → ℝ) (tol : ℝ) (fuel : ℕ) (δ0 δs : Fin J → ℝ),
      delta_solver upd tol fuel δ0 = some δs ↔
        ∃ n, n < fuel ∧ (∀ m, m < n → tol ≤ ‖upd (delta_orbit upd δ0 m)‖) ∧
          ‖upd (delta_orbit upd δ0 n)‖ < tol ∧ δs = delta_orbit upd δ0 (n + 1)) :=
  ⟨fun _ _ => rfl, fun _ _ => rfl,
    fun upd tol fuel δ0 δs => delta_solver_halting upd tol fuel δ0 δs⟩

/-- C2 (witness): with one product, observed and predicted shares both
constantly `1`, the increment is `log 1 - log 1 = 0`, so the solver halts
at once under tolerance `1` and returns the unchanged starting point. -/
theorem delta_solver_spec_witness :
    delta_solver (contraction_update (fun _ : Fin 1 => (1 : ℝ)) (fun _ _ => 1)) 1 1
      (fun _ => 0) = some (fun _ => 0) := by
  have hupd : contraction_update (fun _ : Fin 1 => (1 : ℝ)) (fun _ _ => 1) (fun _ => 0) = 0 := by
    funext j
    simp [contraction_update]
  refine ((delta_solver_spec (fun _ : Fin 1 => (0 : ℝ)) (fun _ : Fin 1 => (0 : Fin 1))
      (fun _ : Fin 1 => (1 : ℝ)) (fun _ _ => 1)).2.2 _ 1 1 (fun _ => 0) (fun _ => 0)).mpr
    ⟨0, Nat.zero_lt_one, fun m hm => absurd hm (Nat.not_lt_zero m), ?_, ?_⟩
  · simp only [delta_orbit, Function.iterate_zero, id_eq]
    rw [hupd]
    simp
  · funext j
    simp only [delta_orbit, Nat.zero_add, Function.iterate_one, contraction_step]
    rw [show contraction_update (fun _ : Fin 1 => (1 : ℝ)) (fun _ _ => 1) (fun _ => 0) j =
      (0 : Fin 1 → ℝ) j from congrFun hupd j]
    simp

/-- Helper: agent choice probabilities are strictly positive. -/
theorem probabilities_pos {J I : ℕ} (V : Fin J → Fin I → ℝ) (j : Fin J) (i : Fin I) :
    0 < probabilities V j i := by
  unfold probabilities
  have hden : 0 < 1 + ∑ k, Real.exp (V k i) := by
    have : (0 : ℝ) ≤ ∑ k, Real.exp (V k i) :=
      Finset.sum_nonneg fun k _ => (Real.exp_pos _).le
    linarith
  exact div_pos (Real.exp_pos _) hden

/-- Helper: agent choice probabilities are strictly below one. -/
theorem probabilities_lt_one {J I : ℕ} (V : Fin J → Fin I → ℝ) (j : Fin J) (i : Fin I) :
    probabilities V j i < 1 := by
  unfold probabilities
  have hden : 0 < 1 + ∑ k, Real.exp (V k i) := by
    have : (0 : ℝ) ≤ ∑ k, Real.exp (V k i) :=
      Finset.sum_nonneg fun k _ => (Real.exp_pos _).le
    linarith
  rw [div_lt_one hden]
  have hle : Real.exp (V j i) ≤ ∑ k, Real.exp (V k i) :=
    Finset.single_le_sum (fun k _ => (Real.exp_pos (V k i)).le) (Finset.mem_univ j)
  linarith

/-- Helper: for each agent the probabilities over inside goods sum to
strictly less than one (the outside good absorbs the rest). -/
theorem sum_probabilities_lt_one {J I : ℕ} (V : Fin J → Fin I → ℝ) (i : Fin I) :
    ∑ j, probabilities V j i < 1 := by
  unfold probabilities
  have hpos : (0 : ℝ) ≤ ∑ k, Real.exp (V k i) :=
    Finset.sum_nonneg fun k _ => (Real.exp_pos _).le
  have hden : 0 < 1 + ∑ k, Real.exp (V k i) := by linarith
  rw [← Finset.sum_div, div_lt_one hden]
  linarith

/-- C5 (counterexample): agent integration weights are only required to
sum to one by the claim, but with the signed quadrature weights
`(2, -1)` (which sum to one), one product, `delta = 0`, `X2 = Sigma = 1`
(1×1), `Pi = 0` and draws `nu = (-log 9, 0)`, the predicted share of the
product is `-3/10`, which is not strictly inside `(0, 1)`. -/
theorem shares_negative_weight_cex :
    (∑ i, (![2, -1] : Fin 2 → ℝ) i) = 1 ∧
      shares (![2, -1] : Fin 2 → ℝ)
        (utilities (fun _ : Fin 1 => 0)
          (mu (1 : Matrix (Fin 1) (Fin 1) ℝ) 1 (0 : Matrix (Fin 1) (Fin 0) ℝ)
            (Matrix.of ![![-Real.log 9], ![0]]) (0 : Matrix (Fin 2) (Fin 0) ℝ)))
        0 = -(3 / 10) ∧
      ¬ (0 < shares (![2, -1] : Fin 2 → ℝ)
        (utilities (fun _ : Fin 1 => 0)
          (mu (1 : Matrix (Fin 1) (Fin 1) ℝ) 1 (0 : Matrix (Fin 1) (Fin 0) ℝ)
            (Matrix.of ![![-Real.log 9], ![0]]) (0 : Matrix (Fin 2) (Fin 0) ℝ)))
        0) := by
  have hmu : mu (1 : Matrix (Fin 1) (Fin 1) ℝ) 1 (0 : Matrix (Fin 1) (Fin 0) ℝ)
      (Matrix.of ![![-Real.log 9], ![0]]) (0 : Matrix (Fin 2) (Fin 0) ℝ) =
      (Matrix.of ![![-Real.log 9], ![0]])ᵀ := by
    unfold mu
    rw [Matrix.zero_mul, add_zero, Matrix.one_mul, Matrix.one_mul]
  have hexp : Real.exp (-Real.log 9) = 9⁻¹ := by
    rw [Real.exp_neg, Real.exp_log (by norm_num : (0 : ℝ) < 9)]
  have hval : shares (![2, -1] : Fin 2 → ℝ)
      (utilities (fun _ : Fin 1 => 0)
        (mu (1 : Matrix (Fin 1) (Fin 1) ℝ) 1 (0 : Matrix (Fin 1) (Fin 0) ℝ)
          (Matrix.of ![![-Real.log 9], ![0]]) (0 : Matrix (Fin 2) (Fin 0) ℝ)))
      0 = -(3 / 10) := by
    rw [hmu]
    unfold shares probabilities utilities
    rw [Fin.sum_univ_two]
    simp only [Fin.sum_univ_one, Matrix.transpose_apply, Matrix.of_apply,
      Matrix.cons_val_zero, Matrix.cons_val_one, Matrix.head_cons, zero_add]
    rw [hexp, Real.exp_zero]
    norm_num
  refine ⟨by norm_num [Fin.sum_univ_succ], hval, ?_⟩
  rw [hval]
  norm_num

/-- C5 (amended): for every mean utility `delta`, every taste
configuration `(Sigma, Pi)` with draws and demographics, and every market
whose agent integration weights are nonnegative and sum to one, the
predicted shares of eq. `shares` are each strictly inside `(0, 1)` and
sum over the market's products to strictly less than one. -/
theorem shares_in_unit_interval {J K2 D I : ℕ} (δ : Fin J → ℝ)
    (X2 : Matrix (Fin J) (Fin K2) ℝ) (Sg : Matrix (Fin K2) (Fin K2) ℝ)
    (Pd : Matrix (Fin K2) (Fin D) ℝ) (nu : Matrix (Fin I) (Fin K2) ℝ)
    (d : Matrix (Fin I) (Fin D) ℝ) (w : Fin I → ℝ)
    (hw0 : ∀ i, 0 ≤ w i) (hw1 : ∑ i, w i = 1) :
    (∀ j, 0 < shares w (utilities δ (mu X2 Sg Pd nu d)) j ∧
      shares w (utilities δ (mu X2 Sg Pd nu d)) j < 1) ∧
    ∑ j, shares w (utilities δ (mu X2 Sg Pd nu d)) j < 1 := by
  set V := utilities δ (mu X2 Sg Pd nu d) with hV
  have hex : ∃ i, 0 < w i := by
    by_contra hno
    push_neg at hno
    have hle : ∑ i, w i ≤ 0 := Finset.sum_nonpos fun i _ => hno i
    rw [hw1] at hle
    linarith
  obtain ⟨i₀, hi₀⟩ := hex
  constructor
  · intro j
    constructor
    · refine Finset.sum_pos' (fun i _ => mul_nonneg (hw0 i) (probabilities_pos V j i).le)
        ⟨i₀, Finset.mem_univ i₀, mul_pos hi₀ (probabilities_pos V j i₀)⟩
    · calc ∑ i, w i * probabilities V j i < ∑ i, w i := by
            refine Finset.sum_lt_sum
              (fun i _ => mul_le_of_le_one_right (hw0 i) (probabilities_lt_one V j i).le)
              ⟨i₀, Finset.mem_univ i₀, ?_⟩
            exact mul_lt_of_lt_one_right hi₀ (probabilities_lt_one V j i₀)
        _ = 1 := hw1
  · have hswap : ∑ j, shares w V j = ∑ i, w i * ∑ j, probabilities V j i := by
      unfold shares
      rw [Finset.sum_comm]
      exact Finset.sum_congr rfl fun i _ => (Finset.mul_sum _ _ _).symm
    rw [hswap]
    have hsp0 : ∀ i, (0 : ℝ) ≤ ∑ j, probabilities V j i :=
      fun i => Finset.sum_nonneg fun j _ => (probabilities_pos V j i).le
    calc ∑ i, w i * ∑ j, probabilities V j i < ∑ i, w i := by
          refine Finset.sum_lt_sum
            (fun i _ => mul_le_of_le_one_right (hw0 i) (sum_probabilities_lt_one V i).le)
            ⟨i₀, Finset.mem_univ i₀, ?_⟩
          exact mul_lt_of_lt_one_right hi₀ (sum_probabilities_lt_one V i₀)
      _ = 1 := hw1

/-- C5 (witness): at `delta = 0`, all-zero 1×1 taste parameters and one
agent of weight `1`, the single predicted share lies in `(0,1)` and the
share sum is below one. -/
theorem shares_in_unit_interval_witness :
    (∀ i : Fin 1, 0 ≤ (fun _ : Fin 1 => (1 : ℝ)) i) ∧
      (∑ i, (fun _ : Fin 1 => (1 : ℝ)) i) = 1 ∧
      (∀ j, 0 < shares (fun _ : Fin 1 => (1 : ℝ))
          (utilities (fun _ : Fin 1 => 0)
            (mu (0 : Matrix (Fin 1) (Fin 1) ℝ) 0 (0 : Matrix (Fin 1) (Fin 1) ℝ) 0 0)) j ∧
        shares (fun _ : Fin 1 => (1 : ℝ))
          (utilities (fun _ : Fin 1 => 0)
            (mu (0 : Matrix (Fin 1) (Fin 1) ℝ) 0 (0 : Matrix (Fin 1) (Fin 1) ℝ) 0 0)) j < 1) := by
  have hw0 : ∀ i : Fin 1, 0 ≤ (fun _ : Fin 1 => (1 : ℝ)) i := fun _ => by norm_num
  have hw1 : (∑ i, (fun _ : Fin 1 => (1 : ℝ)) i) = 1 := by
    simp
  exact ⟨hw0, hw1,
    (shares_in_unit_interval (fun _ : Fin 1 => 0) (0 : Matrix (Fin 1) (Fin 1) ℝ) 0
      (0 : Matrix (Fin 1) (Fin 1) ℝ) 0 0 (fun _ => 1) hw0 hw1).1⟩

/-- Helper: with no active nonlinear parameters (`Sigma = 0`, `Pi = 0`)
the agent-specific utility component vanishes, whatever the
characteristics, draws and demographics. -/
theorem mu_no_nonlinear {J K2 D I : ℕ} (X2 : Matrix (Fin J) (Fin K2) ℝ)
    (nu : Matrix (Fin I) (Fin K2) ℝ) (d : Matrix (Fin I) (Fin D) ℝ) :
    mu X2 0 0 nu d = 0 := by
  unfold mu
  rw [Matrix.zero_mul, Matrix.zero_mul, add_zero, Matrix.mul_zero]

/-- C4: pure-logit round trip.  For every share vector with strictly
positive entries summing to strictly less than one, feeding the
closed-form `delta_j = log s_j - log s_0` (eq. `logit_delta`, with
`s_0 = 1 - ∑_j s_j`) back into the share engine with no nonlinear
parameters (`Sigma = 0`, `Pi = 0`, one representative agent of weight 1)
reproduces the shares exactly; and at the concrete shares
`(0.5, 0.3, 0.1)` (outside share `0.1`) the closed form evaluates to
`(log 0.5 - log 0.1, log 0.3 - log 0.1, 0)`. -/
theorem logit_round_trip {J : ℕ} (s : Fin J → ℝ)
    (hpos : ∀ j, 0 < s j) (hsum : ∑ j, s j < 1) :
    (∀ (K2 D : ℕ) (X2 : Matrix (Fin J) (Fin K2) ℝ) (nu : Matrix (Fin 1) (Fin K2) ℝ)
        (d : Matrix (Fin 1) (Fin D) ℝ) (j : Fin J),
      shares (fun _ : Fin 1 => 1) (utilities (logit_delta s) (mu X2 0 0 nu d)) j = s j) ∧
    logit_delta ![(0.5 : ℝ), 0.3, 0.1] =
      ![Real.log 0.5 - Real.log 0.1, Real.log 0.3 - Real.log 0.1, 0] := by
  constructor
  · intro K2 D X2 nu d j
    rw [mu_no_nonlinear]
    unfold shares
    rw [Fin.sum_univ_one, one_mul]
    unfold probabilities utilities
    simp only [Matrix.zero_apply, add_zero]
    have hs0 : 0 < 1 - ∑ k, s k := by linarith
    have ha : 1 - ∑ k, s k ≠ 0 := ne_of_gt hs0
    have hexp : ∀ k, Real.exp (logit_delta s k) = s k / (1 - ∑ t, s t) := by
      intro k
      unfold logit_delta
      rw [Real.exp_sub, Real.exp_log (hpos k), Real.exp_log hs0]
    simp_rw [hexp]
    rw [← Finset.sum_div]
    have hden : (1 : ℝ) + (∑ k, s k) / (1 - ∑ t, s t) = 1 / (1 - ∑ t, s t) := by
      field_simp
    rw [hden]
    field_simp
  · funext j
    fin_cases j <;>
      simp only [logit_delta, Fin.sum_univ_three, Fin.isValue, Matrix.cons_val_zero,
        Matrix.cons_val_one, Matrix.head_cons, Matrix.cons_val_two, Matrix.tail_cons] <;>
      norm_num

/-- C4 (witness): the round trip at the concrete shares `(0.5, 0.3, 0.1)`
with all-zero 1-column characteristics, draws and demographics. -/
theorem logit_round_trip_witness :
    (∀ j : Fin 3, 0 < (![(0.5 : ℝ), 0.3, 0.1]) j) ∧
      (∑ j, (![(0.5 : ℝ), 0.3, 0.1]) j) < 1 ∧
      ∀ j : Fin 3, shares (fun _ : Fin 1 => 1)
        (utilities (logit_delta ![(0.5 : ℝ), 0.3, 0.1])
          (mu (0 : Matrix (Fin 3) (Fin 1) ℝ) 0 (0 : Matrix (Fin 1) (Fin 1) ℝ) 0 0)) j =
        ![(0.5 : ℝ), 0.3, 0.1] j := by
  have hpos : ∀ j : Fin 3, 0 < (![(0.5 : ℝ), 0.3, 0.1]) j := by
    intro j
    fin_cases j <;> norm_num
  have hsum : (∑ j, (![(0.5 : ℝ), 0.3, 0.1]) j) < 1 := by
    rw [Fin.sum_univ_three]
    norm_num
  exact ⟨hpos, hsum, fun j => (logit_round_trip _ hpos hsum).1 1 1 0 0 0 j⟩

/-- C3 (supporting theorem for the slip in eq. `zeta`): with the
share-vector term `- Λ⁻¹ s` restored (as in the spec's formula, following
Morrow and Skerlos), the quantity `Λ(p)(p - c - ζ(p))` whose norm the
price solver drives below tolerance equals the Bertrand
first-order-condition residual `(Λ - (O ⊙ Γ)ᵀ)(p - c) + s`, where `Λ` and
`Γ` are the agent-weighted matrices printed below eq. `zeta`.  The
display in eq. `zeta` itself omits `s`, subtracting the `J × J` matrix
`Λ⁻¹` from a vector, which is not well formed. -/
theorem zeta_foc_residual {J I : ℕ} (w : Fin I → ℝ) (sp dU : Fin J → Fin I → ℝ)
    (Om : Matrix (Fin J) (Fin J) ℝ) (s c p : Fin J → ℝ)
    (hΛ : IsUnit (Lambda_mat w sp dU).det) :
    (Lambda_mat w sp dU).mulVec
        (p - c - zeta (Lambda_mat w sp dU) (Gamma_mat w sp dU) Om s c p) =
      (Lambda_mat w sp dU - (Om ⊙ Gamma_mat w sp dU)ᵀ).mulVec (p - c) + s := by
  have hcancel : ∀ v : Fin J → ℝ,
      (Lambda_mat w sp dU).mulVec ((Lambda_mat w sp dU)⁻¹.mulVec v) = v := by
    intro v
    rw [Matrix.mulVec_mulVec, Matrix.mul_nonsing_inv _ hΛ, Matrix.one_mulVec]
  unfold zeta
  rw [Matrix.mulVec_sub _ (p - c),
    Matrix.mulVec_sub _ ((Lambda_mat w sp dU)⁻¹.mulVec
      ((Om ⊙ Gamma_mat w sp dU)ᵀ.mulVec (p - c))),
    hcancel, hcancel, Matrix.sub_mulVec]
  abel

/-- C3 (witness): the first-order-condition identity at one product, one
agent, weight 1, choice probability 1, utility-price derivative -1 (so
`Λ = (-1)`, invertible), ownership 1, share 1/2, cost 0, price 1. -/
theorem zeta_foc_residual_witness :
    IsUnit (Lambda_mat exw exsp exdU).det ∧
      (Lambda_mat exw exsp exdU).mulVec
          ((fun _ => 1) - (fun _ => 0) -
            zeta (Lambda_mat exw exsp exdU) (Gamma_mat exw exsp exdU) 1
              (fun _ => 1 / 2) (fun _ => 0) (fun _ => 1)) =
        (Lambda_mat exw exsp exdU - (1 ⊙ Gamma_mat exw exsp exdU)ᵀ).mulVec
          ((fun _ => 1) - (fun _ => 0)) + (fun _ => 1 / 2) := by
  have hΛ : IsUnit (Lambda_mat exw exsp exdU).det := by
    rw [Matrix.det_fin_one]
    simp only [Lambda_mat, exw, exsp, exdU, Matrix.diagonal_apply_eq, Fin.sum_univ_one]
    norm_num
  exact ⟨hΛ, zeta_foc_residual exw exsp exdU 1 (fun _ => 1 / 2) (fun _ => 0) (fun _ => 1) hΛ⟩

/-- Helper: `dotCLM` acts as the dot product. -/
theorem dotCLM_apply {P : ℕ} (g v : Fin P → ℝ) : dotCLM g v = g ⬝ᵥ v := rfl

/-- Helper: `matCLM` acts by matrix-vector multiplication. -/
theorem matCLM_apply {M : Type*} [Fintype M] {p : ℕ} (G : Matrix M (Fin p) ℝ)
    (v : Fin p → ℝ) : matCLM G v = G.mulVec v := rfl

/-- Helper: the derivative of the quadratic form `θ ↦ g(θ)' W g(θ)` with
`W` symmetric and `G` the Jacobian of `g` at `θ0` is the linear
functional of the vector `2 G' W g(θ0)`. -/
theorem quadratic_hasFDerivAt {P : ℕ} {M : Type*} [Fintype M]
    (W : Matrix M M ℝ) (hW : Wᵀ = W) (g : (Fin P → ℝ) → M → ℝ)
    (G : Matrix M (Fin P) ℝ) (θ0 : Fin P → ℝ) (hg : HasFDerivAt g (matCLM G) θ0) :
    HasFDerivAt (fun θ => g θ ⬝ᵥ W.mulVec (g θ))
      (dotCLM ((2 : ℝ) • Gᵀ.mulVec (W.mulVec (g θ0)))) θ0 := by
  have hgi : ∀ i, HasFDerivAt (fun θ => g θ i)
      ((ContinuousLinearMap.proj i).comp (matCLM G)) θ0 := hasFDerivAt_pi'.1 hg
  have hrow : ∀ i, HasFDerivAt (fun θ => ∑ j, W i j * g θ j)
      (∑ j, W i j • ((ContinuousLinearMap.proj j).comp (matCLM G))) θ0 :=
    fun i => HasFDerivAt.sum fun j _ => (hgi j).const_mul (W i j)
  have htotal : HasFDerivAt (fun θ => ∑ i, g θ i * ∑ j, W i j * g θ j)
      (∑ i, (g θ0 i • (∑ j, W i j • ((ContinuousLinearMap.proj j).comp (matCLM G))) +
        (∑ j, W i j * g θ0 j) • ((ContinuousLinearMap.proj i).comp (matCLM G)))) θ0 :=
    HasFDerivAt.sum fun i _ => (hgi i).mul (hrow i)
  have hD : (∑ i, (g θ0 i • (∑ j, W i j • ((ContinuousLinearMap.proj j).comp (matCLM G))) +
      (∑ j, W i j * g θ0 j) • ((ContinuousLinearMap.proj i).comp (matCLM G)))) =
      dotCLM ((2 : ℝ) • Gᵀ.mulVec (W.mulVec (g θ0))) := by
    ext v
    simp only [ContinuousLinearMap.sum_apply, ContinuousLinearMap.add_apply,
      ContinuousLinearMap.smul_apply, ContinuousLinearMap.comp_apply,
      ContinuousLinearMap.proj_apply, matCLM_apply, dotCLM_apply, smul_eq_mul]
    have e1 : ∑ i, g θ0 i * ∑ j, W i j * G.mulVec v j =
        g θ0 ⬝ᵥ W.mulVec (G.mulVec v) := rfl
    have e2 : ∑ i, (∑ j, W i j * g θ0 j) * G.mulVec v i =
        W.mulVec (g θ0) ⬝ᵥ G.mulVec v := rfl
    rw [Finset.sum_add_distrib, e1, e2, Matrix.dotProduct_mulVec (g θ0) W,
      show g θ0 ᵥ* W = W.mulVec (g θ0) by rw [← Matrix.mulVec_transpose, hW],
      Matrix.dotProduct_mulVec (W.mulVec (g θ0)) G, ← Matrix.mulVec_transpose,
      Matrix.smul_dotProduct, smul_eq_mul]
    ring
  have hfun : (fun θ => g θ ⬝ᵥ W.mulVec (g θ)) =
      fun θ => ∑ i, g θ i * ∑ j, W i j * g θ j := rfl
  rw [hfun, ← hD]
  exact htotal

/-- Helper: the stacked averaged moments of eq. `averaged_moments` are
differentiable in `theta` with Jacobian given by
eq. `averaged_moments_jacobian`, whenever the structural errors are. -/
theorem averaged_moments_hasFDerivAt {Nn MD MS P : ℕ}
    (ZD : Matrix (Fin Nn) (Fin MD) ℝ) (ZS : Matrix (Fin Nn) (Fin MS) ℝ)
    (ξf ωf : (Fin P → ℝ) → Fin Nn → ℝ) (Jξ Jω : Matrix (Fin Nn) (Fin P) ℝ)
    (θ0 : Fin P → ℝ)
    (hξ : HasFDerivAt ξf (matCLM Jξ) θ0) (hω : HasFDerivAt ωf (matCLM Jω) θ0) :
    HasFDerivAt (averaged_moments ZD ZS ξf ωf)
      (matCLM (averaged_moments_jacobian ZD ZS Jξ Jω)) θ0 := by
  have hpair : HasFDerivAt (fun θ => (ξf θ, ωf θ))
      ((matCLM Jξ).prod (matCLM Jω)) θ0 := hξ.prod hω
  have hcomp : HasFDerivAt (fun θ => stack_moments_CLM ((Nn : ℝ)⁻¹) ZD ZS (ξf θ, ωf θ))
      ((stack_moments_CLM ((Nn : ℝ)⁻¹) ZD ZS).comp ((matCLM Jξ).prod (matCLM Jω))) θ0 :=
    (stack_moments_CLM ((Nn : ℝ)⁻¹) ZD ZS).hasFDerivAt.comp θ0 hpair
  have hfun : (fun θ => stack_moments_CLM ((Nn : ℝ)⁻¹) ZD ZS (ξf θ, ωf θ)) =
      averaged_moments ZD ZS ξf ωf := rfl
  have hder : (stack_moments_CLM ((Nn : ℝ)⁻¹) ZD ZS).comp ((matCLM Jξ).prod (matCLM Jω)) =
      matCLM (averaged_moments_jacobian ZD ZS Jξ Jω) := by
    ext v mm
    cases mm with
    | inl m =>
      show ((Nn : ℝ)⁻¹ • ZDᵀ.mulVec (Jξ.mulVec v)) m =
        ((averaged_moments_jacobian ZD ZS Jξ Jω).mulVec v) (Sum.inl m)
      unfold averaged_moments_jacobian
      rw [Matrix.fromRows_mulVec, Sum.elim_inl, Matrix.smul_mulVec_assoc,
        ← Matrix.mulVec_mulVec]
    | inr m =>
      show ((Nn : ℝ)⁻¹ • ZSᵀ.mulVec (Jω.mulVec v)) m =
        ((averaged_moments_jacobian ZD ZS Jξ Jω).mulVec v) (Sum.inr m)
      unfold averaged_moments_jacobian
      rw [Matrix.fromRows_mulVec, Sum.elim_inr, Matrix.smul_mulVec_assoc,
        ← Matrix.mulVec_mulVec]
  rw [← hfun, ← hder]
  exact hcomp

/-- C1: the GMM engine.  The scalar objective is
`q(theta) = N² ḡ(theta)' W ḡ(theta)` (eq. `objective`) built from the
stacked averaged moments `ḡ` of eq. `averaged_moments`, and the reported
gradient `∇q(theta) = 2N² Ḡ(theta)' W ḡ(theta)` (eq. `gradient`) — with
`Ḡ` the stacked moment Jacobian of eq. `averaged_moments_jacobian` — is
the true derivative of the objective at every `theta` at which the
structural errors are differentiable with the stated Jacobians, for every
symmetric weighting matrix `W`. -/
theorem gmm_objective_gradient {Nn MD MS P : ℕ}
    (ZD : Matrix (Fin Nn) (Fin MD) ℝ) (ZS : Matrix (Fin Nn) (Fin MS) ℝ)
    (W : Matrix (Fin MD ⊕ Fin MS) (Fin MD ⊕ Fin MS) ℝ) (hW : Wᵀ = W)
    (ξf ωf : (Fin P → ℝ) → Fin Nn → ℝ) (Jξ Jω : Matrix (Fin Nn) (Fin P) ℝ)
    (θ0 : Fin P → ℝ)
    (hξ : HasFDerivAt ξf (matCLM Jξ) θ0) (hω : HasFDerivAt ωf (matCLM Jω) θ0) :
    HasFDerivAt (objective Nn W (averaged_moments ZD ZS ξf ωf))
      (dotCLM (gradient Nn W (averaged_moments ZD ZS ξf ωf)
        (averaged_moments_jacobian ZD ZS Jξ Jω) θ0)) θ0 := by
  have hquad := quadratic_hasFDerivAt W hW (averaged_moments ZD ZS ξf ωf)
    (averaged_moments_jacobian ZD ZS Jξ Jω) θ0
    (averaged_moments_hasFDerivAt ZD ZS ξf ωf Jξ Jω θ0 hξ hω)
  have hconst := hquad.const_mul ((Nn : ℝ) ^ 2)
  have hfun : (fun θ => (Nn : ℝ) ^ 2 * (averaged_moments ZD ZS ξf ωf θ ⬝ᵥ
      W.mulVec (averaged_moments ZD ZS ξf ωf θ))) =
      objective Nn W (averaged_moments ZD ZS ξf ωf) := rfl
  have hder : ((Nn : ℝ) ^ 2) • dotCLM ((2 : ℝ) •
      (averaged_moments_jacobian ZD ZS Jξ Jω)ᵀ.mulVec
        (W.mulVec (averaged_moments ZD ZS ξf ωf θ0))) =
      dotCLM (gradient Nn W (averaged_moments ZD ZS ξf ωf)
        (averaged_moments_jacobian ZD ZS Jξ Jω) θ0) := by
    ext v
    simp only [ContinuousLinearMap.smul_apply, dotCLM_apply, smul_eq_mul]
    unfold gradient
    rw [Matrix.smul_dotProduct, Matrix.smul_dotProduct]
    simp only [smul_eq_mul]
    ring
  rw [← hfun, ← hder]
  exact hconst

/-- C1 (witness): at one product, one instrument of each kind, one
parameter, identity weighting and constant-zero structural errors (whose
Jacobians are the zero matrices), the objective has the stated derivative
at `theta = 0`. -/
theorem gmm_objective_gradient_witness :
    ((1 : Matrix (Fin 1 ⊕ Fin 1) (Fin 1 ⊕ Fin 1) ℝ)ᵀ = 1) ∧
      HasFDerivAt (fun _ : Fin 1 → ℝ => (fun _ : Fin 1 => (0 : ℝ)))
        (matCLM (0 : Matrix (Fin 1) (Fin 1) ℝ)) (fun _ : Fin 1 => (0 : ℝ)) ∧
      HasFDerivAt (objective 1 (1 : Matrix (Fin 1 ⊕ Fin 1) (Fin 1 ⊕ Fin 1) ℝ)
          (averaged_moments (0 : Matrix (Fin 1) (Fin 1) ℝ) (0 : Matrix (Fin 1) (Fin 1) ℝ)
            (fun _ : Fin 1 → ℝ => fun _ : Fin 1 => (0 : ℝ))
            (fun _ : Fin 1 → ℝ => fun _ : Fin 1 => (0 : ℝ))))
        (dotCLM (gradient 1 (1 : Matrix (Fin 1 ⊕ Fin 1) (Fin 1 ⊕ Fin 1) ℝ)
          (averaged_moments (0 : Matrix (Fin 1) (Fin 1) ℝ) (0 : Matrix (Fin 1) (Fin 1) ℝ)
            (fun _ : Fin 1 → ℝ => fun _ : Fin 1 => (0 : ℝ))
            (fun _ : Fin 1 → ℝ => fun _ : Fin 1 => (0 : ℝ)))
          (averaged_moments_jacobian (0 : Matrix (Fin 1) (Fin 1) ℝ)
            (0 : Matrix (Fin 1) (Fin 1) ℝ) (0 : Matrix (Fin 1) (Fin 1) ℝ)
            (0 : Matrix (Fin 1) (Fin 1) ℝ)) (fun _ : Fin 1 => (0 : ℝ))))
        (fun _ : Fin 1 => (0 : ℝ)) := by
  have hW : (1 : Matrix (Fin 1 ⊕ Fin 1) (Fin 1 ⊕ Fin 1) ℝ)ᵀ = 1 := Matrix.transpose_one
  have hzero : HasFDerivAt (fun _ : Fin 1 → ℝ => (fun _ : Fin 1 => (0 : ℝ)))
      (matCLM (0 : Matrix (Fin 1) (Fin 1) ℝ)) (fun _ : Fin 1 => (0 : ℝ)) := by
    have h0 : matCLM (0 : Matrix (Fin 1) (Fin 1) ℝ) = 0 := by
      ext v
      rw [matCLM_apply, Matrix.zero_mulVec]
      rfl
    rw [h0]
    exact hasFDerivAt_const _ _
  exact ⟨hW, hzero,
    gmm_objective_gradient 0 0 1 hW _ _ 0 0 (fun _ : Fin 1 => (0 : ℝ)) hzero hzero⟩

/-- Helper: the projection matrix is symmetric. -/
theorem proj_mat_transpose {N : ℕ} {κ : Type*} [Fintype κ] [DecidableEq κ]
    (D : Matrix (Fin N) κ ℝ) : (proj_mat D)ᵀ = proj_mat D := by
  unfold proj_mat
  rw [Matrix.transpose_mul, Matrix.transpose_mul, Matrix.transpose_transpose,
    Matrix.transpose_nonsing_inv, Matrix.transpose_mul, Matrix.transpose_transpose,
    ← Matrix.mul_assoc]

/-- Helper: the projection matrix fixes the columns of `D`. -/
theorem proj_mat_mul {N : ℕ} {κ : Type*} [Fintype κ] [DecidableEq κ]
    (D : Matrix (Fin N) κ ℝ) (hD : IsUnit (Dᵀ * D).det) : proj_mat D * D = D := by
  unfold proj_mat
  rw [Matrix.mul_assoc, Matrix.mul_assoc, Matrix.nonsing_inv_mul _ hD, Matrix.mul_one]

/-- Helper: the annihilator kills the columns of `D`. -/
theorem annih_mul {N : ℕ} {κ : Type*} [Fintype κ] [DecidableEq κ]
    (D : Matrix (Fin N) κ ℝ) (hD : IsUnit (Dᵀ * D).det) : annih D * D = 0 := by
  unfold annih
  rw [Matrix.sub_mul, Matrix.one_mul, proj_mat_mul D hD, sub_self]

/-- Helper: the annihilator is symmetric. -/
theorem annih_transpose {N : ℕ} {κ : Type*} [Fintype κ] [DecidableEq κ]
    (D : Matrix (Fin N) κ ℝ) : (annih D)ᵀ = annih D := by
  unfold annih
  rw [Matrix.transpose_sub, Matrix.transpose_one, proj_mat_transpose]

/-- Helper: the projection matrix is idempotent. -/
theorem proj_mat_idem {N : ℕ} {κ : Type*} [Fintype κ] [DecidableEq κ]
    (D : Matrix (Fin N) κ ℝ) (hD : IsUnit (Dᵀ * D).det) :
    proj_mat D * proj_mat D = proj_mat D := by
  have h : proj_mat D * (D * ((Dᵀ * D)⁻¹ * Dᵀ)) = D * ((Dᵀ * D)⁻¹ * Dᵀ) := by
    rw [← Matrix.mul_assoc, proj_mat_mul D hD]
  calc proj_mat D * proj_mat D = proj_mat D * (D * ((Dᵀ * D)⁻¹ * Dᵀ)) := by
        unfold proj_mat
        simp only [Matrix.mul_assoc]
    _ = D * ((Dᵀ * D)⁻¹ * Dᵀ) := h
    _ = proj_mat D := by
        unfold proj_mat
        simp only [Matrix.mul_assoc]

/-- Helper: the annihilator is idempotent. -/
theorem annih_idem {N : ℕ} {κ : Type*} [Fintype κ] [DecidableEq κ]
    (D : Matrix (Fin N) κ ℝ) (hD : IsUnit (Dᵀ * D).det) :
    annih D * annih D = annih D := by
  unfold annih
  rw [Matrix.mul_sub, Matrix.mul_one, Matrix.sub_mul, Matrix.one_mul, proj_mat_idem D hD]
  abel

/-- Helper: a symmetric idempotent-style projector with a given column
span is unique: two symmetric matrices that factor through `S` and fix
`S` coincide. -/
theorem proj_unique {N : ℕ} {κ : Type*} [Fintype κ] (S : Matrix (Fin N) κ ℝ)
    (P₁ P₂ : Matrix (Fin N) (Fin N) ℝ)
    (hB1 : ∃ B, P₁ = S * B) (hB2 : ∃ B, P₂ = S * B)
    (hs1 : P₁ᵀ = P₁) (hs2 : P₂ᵀ = P₂)
    (hp1 : P₁ * S = S) (hp2 : P₂ * S = S) : P₁ = P₂ := by
  obtain ⟨B₁, hB₁⟩ := hB1
  obtain ⟨B₂, hB₂⟩ := hB2
  have h12 : P₁ * P₂ = P₂ := by rw [hB₂, ← Matrix.mul_assoc, hp1]
  have h21 : P₂ * P₁ = P₁ := by rw [hB₁, ← Matrix.mul_assoc, hp2]
  calc P₁ = P₂ * P₁ := h21.symm
    _ = (P₁ᵀ * P₂ᵀ)ᵀ := by
        rw [Matrix.transpose_mul, Matrix.transpose_transpose, Matrix.transpose_transpose]
    _ = (P₁ * P₂)ᵀ := by rw [hs1, hs2]
    _ = P₂ᵀ := by rw [h12]
    _ = P₂ := hs2

/-- Helper (Frisch–Waugh–Lovell for the 2SLS-weighted IV-GMM step of
eq. `iv`, with an abstract full-column-rank control matrix `D`): the
estimates computed from the residualized matrices `annih D * X`,
`annih D * Z` and outcome `annih D *ᵥ Y` coincide with the `X`-block of
the estimates computed from the matrices augmented with the columns of
`D`. -/
theorem fwl_abstract {N K MZ L : ℕ} (X : Matrix (Fin N) (Fin K) ℝ)
    (Z : Matrix (Fin N) (Fin MZ) ℝ) (D : Matrix (Fin N) (Fin L) ℝ) (Y : Fin N → ℝ)
    (hD : IsUnit (Dᵀ * D).det)
    (hSa : IsUnit ((Matrix.fromColumns Z D)ᵀ * Matrix.fromColumns Z D).det)
    (hZd : IsUnit ((annih D * Z)ᵀ * (annih D * Z)).det)
    (hAd : IsUnit ((annih D * X)ᵀ * (annih D * Z) *
      ((annih D * Z)ᵀ * (annih D * Z))⁻¹ * (annih D * Z)ᵀ * (annih D * X)).det)
    (hAa : IsUnit ((Matrix.fromColumns X D)ᵀ * Matrix.fromColumns Z D *
      ((Matrix.fromColumns Z D)ᵀ * Matrix.fromColumns Z D)⁻¹ *
      (Matrix.fromColumns Z D)ᵀ * Matrix.fromColumns X D).det) :
    iv_gmm (annih D * X) (annih D * Z) (((annih D * Z)ᵀ * (annih D * Z))⁻¹)
        ((annih D).mulVec Y) =
      fun k => iv_gmm (Matrix.fromColumns X D) (Matrix.fromColumns Z D)
        (((Matrix.fromColumns Z D)ᵀ * Matrix.fromColumns Z D)⁻¹) Y (Sum.inl k) := by
  set Md := annih D with hMddef
  set Zd := Md * Z with hZddef
  set Xd := Md * X with hXddef
  set Sa := Matrix.fromColumns Z D with hSadef
  set Ra := Matrix.fromColumns X D with hRadef
  set Q := proj_mat Zd with hQdef
  set Pa := proj_mat Sa with hPadef
  have hPdD : proj_mat D * D = D := proj_mat_mul D hD
  have hMdD : Md * D = 0 := annih_mul D hD
  have hMdsym : Mdᵀ = Md := annih_transpose D
  have hMdMd : Md * Md = Md := annih_idem D hD
  have hZdD : Zdᵀ * D = 0 := by
    rw [hZddef, Matrix.transpose_mul, hMdsym, Matrix.mul_assoc, hMdD, Matrix.mul_zero]
  have hQZd : Q * Zd = Zd := proj_mat_mul Zd hZd
  have hQsym : Qᵀ = Q := proj_mat_transpose Zd
  have hQD : Q * D = 0 := by
    rw [hQdef]
    unfold proj_mat
    rw [Matrix.mul_assoc, hZdD, Matrix.mul_zero]
  have hQPd : Q * proj_mat D = 0 := by
    unfold proj_mat
    rw [← Matrix.mul_assoc, ← Matrix.mul_assoc, hQD, Matrix.zero_mul, Matrix.zero_mul]
  have hMdZd : Md * Zd = Zd := by
    rw [hZddef, ← Matrix.mul_assoc, hMdMd]
  have hMdQ : Md * Q = Q := by
    rw [hQdef]
    unfold proj_mat
    rw [← Matrix.mul_assoc, ← Matrix.mul_assoc, hMdZd]
  have hQMd : Q * Md = Q := by
    rw [hMddef]
    unfold annih
    rw [Matrix.mul_sub, Matrix.mul_one, hQPd, sub_zero]
  have hZsplit : Z = Zd + proj_mat D * Z := by
    rw [hZddef, hMddef]
    unfold annih
    rw [Matrix.sub_mul, Matrix.one_mul]
    abel
  have hQZ : Q * Z = Zd := by
    conv_lhs => rw [hZsplit]
    rw [Matrix.mul_add, hQZd, ← Matrix.mul_assoc, hQPd, Matrix.zero_mul, add_zero]
  have hPdB : proj_mat D = Sa * Matrix.fromRows 0 ((Dᵀ * D)⁻¹ * Dᵀ) := by
    rw [hSadef, Matrix.fromColumns_mul_fromRows, Matrix.mul_zero, zero_add]
    unfold proj_mat
    rw [Matrix.mul_assoc]
  have hZdB : Zd = Sa * Matrix.fromRows 1 (-((Dᵀ * D)⁻¹ * (Dᵀ * Z))) := by
    rw [hSadef, Matrix.fromColumns_mul_fromRows, Matrix.mul_one, Matrix.mul_neg,
      hZddef, hMddef]
    unfold annih proj_mat
    rw [Matrix.sub_mul, Matrix.one_mul]
    simp only [Matrix.mul_assoc, sub_eq_add_neg]
  have hQB : Q = Sa * (Matrix.fromRows 1 (-((Dᵀ * D)⁻¹ * (Dᵀ * Z))) *
      ((Zdᵀ * Zd)⁻¹ * Zdᵀ)) := by
    rw [hQdef]
    unfold proj_mat
    nth_rewrite 1 [hZdB]
    simp only [Matrix.mul_assoc]
  have hPaB : ∃ B, Pa = Sa * B :=
    ⟨(Saᵀ * Sa)⁻¹ * Saᵀ, by
      rw [hPadef]
      unfold proj_mat
      rw [Matrix.mul_assoc]⟩
  have hP2B : ∃ B, proj_mat D + Q = Sa * B :=
    ⟨_, by rw [hPdB, hQB, ← Matrix.mul_add]⟩
  have hPasym : Paᵀ = Pa := proj_mat_transpose Sa
  have hP2sym : (proj_mat D + Q)ᵀ = proj_mat D + Q := by
    rw [Matrix.transpose_add, proj_mat_transpose, hQsym]
  have hPaSa : Pa * Sa = Sa := proj_mat_mul Sa hSa
  have hcol1 : (proj_mat D + Q) * Z = Z := by
    rw [Matrix.add_mul, hQZ]
    conv_rhs => rw [hZsplit]
    abel
  have hcol2 : (proj_mat D + Q) * D = D := by
    rw [Matrix.add_mul, hPdD, hQD, add_zero]
  have hP2Sa : (proj_mat D + Q) * Sa = Sa := by
    rw [hSadef, Matrix.mul_fromColumns, hcol1, hcol2]
  have hPaP2 : Pa = proj_mat D + Q :=
    proj_unique Sa Pa _ hPaB hP2B hPasym hP2sym hPaSa hP2Sa
  have hRaT : Raᵀ = Matrix.fromRows Xᵀ Dᵀ := by
    rw [hRadef]
    exact Matrix.transpose_fromColumns X D
  set b := iv_gmm Ra Sa ((Saᵀ * Sa)⁻¹) Y with hbdef
  set b1 := fun k => b (Sum.inl k) with hb1def
  set b2 := fun l => b (Sum.inr l) with hb2def
  have hbelim : b = Sum.elim b1 b2 := by
    funext mm
    cases mm with
    | inl k => rfl
    | inr l => rfl
  have hPa_in_iv : Raᵀ * Sa * (Saᵀ * Sa)⁻¹ * Saᵀ = Raᵀ * Pa := by
    rw [hPadef]
    unfold proj_mat
    simp only [Matrix.mul_assoc]
  have hAa' : IsUnit (Raᵀ * Pa * Ra).det := by
    rw [← hPa_in_iv]
    exact hAa
  have hb_eq : b = ((Raᵀ * Pa * Ra)⁻¹ * (Raᵀ * Pa)).mulVec Y := by
    rw [hbdef]
    unfold iv_gmm
    rw [hPa_in_iv]
  have hAab : (Raᵀ * Pa * Ra).mulVec b = (Raᵀ * Pa).mulVec Y := by
    rw [hb_eq, Matrix.mulVec_mulVec, ← Matrix.mul_assoc,
      Matrix.mul_nonsing_inv _ hAa', Matrix.one_mul]
  set e := Ra.mulVec b - Y with hedef
  have he : (Raᵀ * Pa).mulVec e = 0 := by
    rw [hedef, Matrix.mulVec_sub, Matrix.mulVec_mulVec, hAab, sub_self]
  have hcomp : Sum.elim ((Xᵀ * Pa).mulVec e) ((Dᵀ * Pa).mulVec e) = 0 := by
    rw [← Matrix.fromRows_mulVec, ← Matrix.fromRows_mul, ← hRaT, he]
  have hXPae : (Xᵀ * Pa).mulVec e = 0 := by
    funext k
    exact congrFun hcomp (Sum.inl k)
  have hDPae : (Dᵀ * Pa).mulVec e = 0 := by
    funext l
    exact congrFun hcomp (Sum.inr l)
  have hDtPa : Dᵀ * Pa = Dᵀ := by
    rw [hPaP2, Matrix.mul_add]
    have h1 : Dᵀ * proj_mat D = Dᵀ := by
      rw [← proj_mat_transpose, ← Matrix.transpose_mul, proj_mat_mul D hD]
    have h2 : Dᵀ * Q = 0 := by
      rw [← hQsym, ← Matrix.transpose_mul, hQD, Matrix.transpose_zero]
    rw [h1, h2, add_zero]
  have hDe : Dᵀ.mulVec e = 0 := by
    rw [← hDtPa]
    exact hDPae
  have hPde : (proj_mat D).mulVec e = 0 := by
    unfold proj_mat
    rw [← Matrix.mulVec_mulVec, hDe, Matrix.mulVec_zero]
  have hMde : Md.mulVec e = e := by
    rw [hMddef]
    unfold annih
    rw [Matrix.sub_mulVec, Matrix.one_mulVec, hPde, sub_zero]
  have hXQe : (Xᵀ * Q).mulVec e = 0 := by
    have hXPa : Xᵀ * Pa = Xᵀ * proj_mat D + Xᵀ * Q := by rw [hPaP2, Matrix.mul_add]
    have h1 : (Xᵀ * proj_mat D).mulVec e = 0 := by
      rw [← Matrix.mulVec_mulVec, hPde, Matrix.mulVec_zero]
    have h2 := hXPae
    rw [hXPa, Matrix.add_mulVec, h1, zero_add] at h2
    exact h2
  have hXdT : Xdᵀ = Xᵀ * Md := by
    rw [hXddef, Matrix.transpose_mul, hMdsym]
  have hXQ_eq : Xᵀ * Q = Xdᵀ * Q := by
    rw [hXdT, Matrix.mul_assoc, hMdQ]
  have hMdebis : Md.mulVec e = Xd.mulVec b1 - Md.mulVec Y := by
    rw [hedef, Matrix.mulVec_sub]
    congr 1
    rw [hbelim, hRadef, Matrix.fromColumns_mulVec_sum_elim, Matrix.mulVec_add,
      Matrix.mulVec_mulVec, Matrix.mulVec_mulVec, hMdD, Matrix.zero_mulVec, add_zero,
      ← hXddef]
  have hkey : (Xdᵀ * Q * Xd).mulVec b1 = (Xdᵀ * Q).mulVec (Md.mulVec Y) := by
    have step : (Xdᵀ * Q).mulVec e = 0 := by
      rw [← hXQ_eq]
      exact hXQe
    have step2 : (Xdᵀ * Q).mulVec (Md.mulVec e) = 0 := by
      rw [Matrix.mulVec_mulVec, Matrix.mul_assoc, hQMd]
      exact step
    rw [hMdebis] at step2
    rw [Matrix.mulVec_sub, Matrix.mulVec_mulVec, sub_eq_zero] at step2
    exact step2
  have hAdQ : Xdᵀ * Zd * (Zdᵀ * Zd)⁻¹ * Zdᵀ * Xd = Xdᵀ * Q * Xd := by
    rw [hQdef]
    unfold proj_mat
    simp only [Matrix.mul_assoc]
  have hAd' : IsUnit (Xdᵀ * Q * Xd).det := by
    rw [← hAdQ]
    exact hAd
  have hQfold : Xdᵀ * Zd * (Zdᵀ * Zd)⁻¹ * Zdᵀ = Xdᵀ * Q := by
    rw [hQdef]
    unfold proj_mat
    simp only [Matrix.mul_assoc]
  have hfinal : b1 = ((Xdᵀ * Q * Xd)⁻¹ * (Xdᵀ * Q)).mulVec (Md.mulVec Y) := by
    calc b1 = (1 : Matrix (Fin K) (Fin K) ℝ).mulVec b1 := (Matrix.one_mulVec b1).symm
      _ = ((Xdᵀ * Q * Xd)⁻¹ * (Xdᵀ * Q * Xd)).mulVec b1 := by
          rw [Matrix.nonsing_inv_mul _ hAd']
      _ = (Xdᵀ * Q * Xd)⁻¹.mulVec ((Xdᵀ * Q * Xd).mulVec b1) := by
          rw [Matrix.mulVec_mulVec]
      _ = (Xdᵀ * Q * Xd)⁻¹.mulVec ((Xdᵀ * Q).mulVec (Md.mulVec Y)) := by rw [hkey]
      _ = ((Xdᵀ * Q * Xd)⁻¹ * (Xdᵀ * Q)).mulVec (Md.mulVec Y) := by
          rw [Matrix.mulVec_mulVec]
  show iv_gmm Xd Zd ((Zdᵀ * Zd)⁻¹) (Md.mulVec Y) = b1
  unfold iv_gmm
  rw [hQfold, hfinal]

/-- Helper: the Gram matrix of the dummy-variable matrix is the diagonal
matrix of level counts. -/
theorem fe_dummies_gram {N L : ℕ} (lev : Fin N → Fin L) :
    (fe_dummies lev)ᵀ * fe_dummies lev =
      Matrix.diagonal (fun l => (fe_count lev l : ℝ)) := by
  ext l l'
  simp only [Matrix.mul_apply, Matrix.transpose_apply, fe_dummies, Matrix.of_apply]
  by_cases h : l = l'
  · subst h
    rw [Matrix.diagonal_apply_eq]
    have hterm : ∀ n : Fin N,
        ((if lev n = l then (1 : ℝ) else 0) * (if lev n = l then 1 else 0)) =
          if lev n = l then 1 else 0 := by
      intro n
      by_cases hn : lev n = l <;> simp [hn]
    rw [Finset.sum_congr rfl (fun n _ => hterm n), Finset.sum_boole]
    rfl
  · rw [Matrix.diagonal_apply_ne _ h]
    have hterm : ∀ n : Fin N,
        ((if lev n = l then (1 : ℝ) else 0) * (if lev n = l' then 1 else 0)) = 0 := by
      intro n
      by_cases h1 : lev n = l
      · have h2 : ¬ lev n = l' := fun hc => h (h1.symm.trans hc)
        simp [h1, h2, h]
      · simp [h1]
    rw [Finset.sum_congr rfl (fun n _ => hterm n), Finset.sum_const, smul_zero]

/-- Helper: when every level is occupied, level counts are positive. -/
theorem fe_count_pos {N L : ℕ} (lev : Fin N → Fin L) (hlev : ∀ l, ∃ n, lev n = l)
    (l : Fin L) : 0 < fe_count lev l := by
  obtain ⟨n, hn⟩ := hlev l
  exact Finset.card_pos.mpr ⟨n, Finset.mem_filter.mpr ⟨Finset.mem_univ n, hn⟩⟩

/-- Helper: the dummy Gram matrix is invertible when every level is
occupied. -/
theorem fe_dummies_gram_isUnit {N L : ℕ} (lev : Fin N → Fin L)
    (hlev : ∀ l, ∃ n, lev n = l) :
    IsUnit ((fe_dummies lev)ᵀ * fe_dummies lev).det := by
  rw [fe_dummies_gram, Matrix.det_diagonal, isUnit_iff_ne_zero]
  refine Finset.prod_ne_zero_iff.mpr fun l _ => ?_
  exact Nat.cast_ne_zero.mpr (fe_count_pos lev hlev l).ne'

/-- Helper: the inverse of the dummy Gram matrix is the diagonal matrix
of reciprocal counts. -/
theorem fe_dummies_gram_inv {N L : ℕ} (lev : Fin N → Fin L)
    (hlev : ∀ l, ∃ n, lev n = l) :
    ((fe_dummies lev)ᵀ * fe_dummies lev)⁻¹ =
      Matrix.diagonal (fun l => ((fe_count lev l : ℝ))⁻¹) := by
  refine Matrix.inv_eq_right_inv ?_
  rw [fe_dummies_gram, Matrix.diagonal_mul_diagonal]
  have h : (fun l => (fe_count lev l : ℝ) * (fe_count lev l : ℝ)⁻¹) =
      fun _ => (1 : ℝ) :=
    funext fun l => mul_inv_cancel₀ (Nat.cast_ne_zero.mpr (fe_count_pos lev hlev l).ne')
  rw [h, Matrix.diagonal_one]

/-- Helper: applying the annihilator of the dummy matrix is exactly
within-level de-meaning of a vector (the textual description in the
Fixed Effects section: de-meaning equals residualizing on the dummies). -/
theorem annih_fe_dummies_mulVec {N L : ℕ} (lev : Fin N → Fin L)
    (hlev : ∀ l, ∃ n, lev n = l) (v : Fin N → ℝ) :
    (annih (fe_dummies lev)).mulVec v = demean lev v := by
  funext n
  unfold annih demean
  rw [Matrix.sub_mulVec, Matrix.one_mulVec, Pi.sub_apply]
  congr 1
  unfold proj_mat
  rw [← Matrix.mulVec_mulVec, ← Matrix.mulVec_mulVec, fe_dummies_gram_inv lev hlev]
  have hgramv : ((fe_dummies lev)ᵀ.mulVec v) =
      fun l => ∑ m ∈ Finset.univ.filter (fun m => lev m = l), v m := by
    funext l
    simp only [Matrix.mulVec, Matrix.dotProduct, Matrix.transpose_apply, fe_dummies,
      Matrix.of_apply, ite_mul, one_mul, zero_mul]
    exact (Finset.sum_filter _ _).symm
  rw [hgramv]
  have houter : ∀ u : Fin L → ℝ, ((fe_dummies lev).mulVec u) n = u (lev n) := by
    intro u
    simp only [Matrix.mulVec, Matrix.dotProduct, fe_dummies, Matrix.of_apply, ite_mul,
      one_mul, zero_mul]
    rw [Finset.sum_ite_eq]
    simp
  rw [houter, Matrix.mulVec_diagonal, div_eq_mul_inv, mul_comm]

/-- Helper: the matrix version of `annih_fe_dummies_mulVec`, column by
column. -/
theorem annih_fe_dummies_mul {N L K : ℕ} (lev : Fin N → Fin L)
    (hlev : ∀ l, ∃ n, lev n = l) (A : Matrix (Fin N) (Fin K) ℝ) :
    annih (fe_dummies lev) * A = demean_cols lev A := by
  ext n k
  have h := congrFun (annih_fe_dummies_mulVec lev hlev (fun m => A m k)) n
  simp only [Matrix.mulVec, Matrix.dotProduct] at h
  simp only [demean_cols, Matrix.of_apply, Matrix.mul_apply]
  exact h

/-- C10: fixed-effect absorption equivalence (Frisch–Waugh–Lovell).  For
every design matrix `X`, instrument matrix `Z` and outcome `Y`, running
the closed-form IV-GMM step of eq. `iv` (with its first-stage 2SLS
weighting built from the instruments used) on matrices de-meaned within
each level of a fixed effect yields exactly the same estimates of the
`X`-coefficients as running it on the original matrices augmented with
one dummy column per fixed-effect level, provided every level is
occupied and the relevant Gram and GMM matrices are invertible. -/
theorem fe_absorption_equivalence {N L K MZ : ℕ} (lev : Fin N → Fin L)
    (X : Matrix (Fin N) (Fin K) ℝ) (Z : Matrix (Fin N) (Fin MZ) ℝ) (Y : Fin N → ℝ)
    (hlev : ∀ l, ∃ n, lev n = l)
    (hSa : IsUnit ((Matrix.fromColumns Z (fe_dummies lev))ᵀ *
      Matrix.fromColumns Z (fe_dummies lev)).det)
    (hZd : IsUnit ((demean_cols lev Z)ᵀ * demean_cols lev Z).det)
    (hAd : IsUnit ((demean_cols lev X)ᵀ * demean_cols lev Z *
      ((demean_cols lev Z)ᵀ * demean_cols lev Z)⁻¹ * (demean_cols lev Z)ᵀ *
      demean_cols lev X).det)
    (hAa : IsUnit ((Matrix.fromColumns X (fe_dummies lev))ᵀ *
      Matrix.fromColumns Z (fe_dummies lev) *
      ((Matrix.fromColumns Z (fe_dummies lev))ᵀ *
        Matrix.fromColumns Z (fe_dummies lev))⁻¹ *
      (Matrix.fromColumns Z (fe_dummies lev))ᵀ *
      Matrix.fromColumns X (fe_dummies lev)).det) :
    iv_gmm (demean_cols lev X) (demean_cols lev Z)
        (((demean_cols lev Z)ᵀ * demean_cols lev Z)⁻¹) (demean lev Y) =
      fun k => iv_gmm (Matrix.fromColumns X (fe_dummies lev))
        (Matrix.fromColumns Z (fe_dummies lev))
        (((Matrix.fromColumns Z (fe_dummies lev))ᵀ *
          Matrix.fromColumns Z (fe_dummies lev))⁻¹) Y (Sum.inl k) := by
  have hbx := annih_fe_dummies_mul lev hlev X
  have hbz := annih_fe_dummies_mul lev hlev Z
  have hby := annih_fe_dummies_mulVec lev hlev Y
  rw [← hbx, ← hbz] at hAd
  rw [← hbz] at hZd
  rw [← hbx, ← hbz, ← hby]
  exact fwl_abstract X Z (fe_dummies lev) Y (fe_dummies_gram_isUnit lev hlev)
    hSa hZd hAd hAa

/-- Helper: a nonzero scalar multiple of the identity has invertible
determinant. -/
theorem smul_one_isUnit_det {κ : Type*} [Fintype κ] [DecidableEq κ] {c : ℝ}
    (hc : c ≠ 0) : IsUnit ((c • (1 : Matrix κ κ ℝ))).det := by
  rw [Matrix.det_smul, Matrix.det_one, mul_one]
  exact IsUnit.pow _ (isUnit_iff_ne_zero.mpr hc)

/-- Helper: the inverse of a nonzero scalar multiple of the identity. -/
theorem smul_one_inv {κ : Type*} [Fintype κ] [DecidableEq κ] {c : ℝ} (hc : c ≠ 0) :
    (c • (1 : Matrix κ κ ℝ))⁻¹ = c⁻¹ • 1 := by
  refine Matrix.inv_eq_right_inv ?_
  rw [Matrix.smul_mul, Matrix.one_mul, smul_smul, mul_inv_cancel₀ hc, one_smul]

/-- Helper: product of two scalar multiples of the identity. -/
theorem smul_one_mul_smul_one {κ : Type*} [Fintype κ] [DecidableEq κ] (c d : ℝ) :
    (c • (1 : Matrix κ κ ℝ)) * (d • 1) = (c * d) • 1 := by
  rw [Matrix.smul_mul, Matrix.one_mul, smul_smul]

/-- Helper: the concrete column's Gram matrix. -/
theorem exX_gram : exXᵀ * exX = (2 : ℝ) • (1 : Matrix (Fin 1) (Fin 1) ℝ) := by
  ext i j
  fin_cases i
  fin_cases j
  rw [Matrix.mul_apply, Fin.sum_univ_two]
  norm_num [exX, Matrix.one_apply]

/-- Helper: de-meaning the concrete mean-zero column leaves it fixed. -/
theorem exX_demean : demean_cols exlev exX = exX := by
  ext n k
  fin_cases k
  simp only [demean_cols, Matrix.of_apply, demean, fe_count]
  have hfilter : Finset.univ.filter (fun m : Fin 2 => exlev m = exlev n) =
      Finset.univ := Finset.filter_true_of_mem (fun m _ => rfl)
  rw [hfilter]
  fin_cases n <;> norm_num [exX, Fin.sum_univ_two]

/-- Helper: the concrete augmented instrument Gram matrix. -/
theorem exSa_gram : (Matrix.fromColumns exX (fe_dummies exlev))ᵀ *
    Matrix.fromColumns exX (fe_dummies exlev) =
      (2 : ℝ) • (1 : Matrix (Fin 1 ⊕ Fin 1) (Fin 1 ⊕ Fin 1) ℝ) := by
  ext mm nn
  cases mm with
  | inl i =>
    cases nn with
    | inl j =>
      fin_cases i
      fin_cases j
      rw [Matrix.mul_apply, Fin.sum_univ_two]
      norm_num [Matrix.fromColumns, exX, exlev, fe_dummies, Matrix.one_apply]
    | inr j =>
      fin_cases i
      fin_cases j
      rw [Matrix.mul_apply, Fin.sum_univ_two]
      norm_num [Matrix.fromColumns, exX, exlev, fe_dummies, Matrix.one_apply]
      exact (if_neg (by simp)).symm
  | inr i =>
    cases nn with
    | inl j =>
      fin_cases i
      fin_cases j
      rw [Matrix.mul_apply, Fin.sum_univ_two]
      norm_num [Matrix.fromColumns, exX, exlev, fe_dummies, Matrix.one_apply]
      exact (if_neg (by simp)).symm
    | inr j =>
      fin_cases i
      fin_cases j
      rw [Matrix.mul_apply, Fin.sum_univ_two]
      norm_num [Matrix.fromColumns, exX, exlev, fe_dummies, Matrix.one_apply]

/-- C10 (witness): the de-meaned and dummy-augmented IV-GMM estimates
coincide at the concrete two-observation, one-level instance with the
mean-zero column `(1, -1)` as design matrix and instrument. -/
theorem fe_absorption_equivalence_witness :
    (∀ l, ∃ n, exlev n = l) ∧
    IsUnit ((Matrix.fromColumns exX (fe_dummies exlev))ᵀ *
      Matrix.fromColumns exX (fe_dummies exlev)).det ∧
    IsUnit ((demean_cols exlev exX)ᵀ * demean_cols exlev exX).det ∧
    IsUnit ((demean_cols exlev exX)ᵀ * demean_cols exlev exX *
      ((demean_cols exlev exX)ᵀ * demean_cols exlev exX)⁻¹ * (demean_cols exlev exX)ᵀ *
      demean_cols exlev exX).det ∧
    IsUnit ((Matrix.fromColumns exX (fe_dummies exlev))ᵀ *
      Matrix.fromColumns exX (fe_dummies exlev) *
      ((Matrix.fromColumns exX (fe_dummies exlev))ᵀ *
        Matrix.fromColumns exX (fe_dummies exlev))⁻¹ *
      (Matrix.fromColumns exX (fe_dummies exlev))ᵀ *
      Matrix.fromColumns exX (fe_dummies exlev)).det ∧
    iv_gmm (demean_cols exlev exX) (demean_cols exlev exX)
        (((demean_cols exlev exX)ᵀ * demean_cols exlev exX)⁻¹) (demean exlev exY) =
      fun k => iv_gmm (Matrix.fromColumns exX (fe_dummies exlev))
        (Matrix.fromColumns exX (fe_dummies exlev))
        (((Matrix.fromColumns exX (fe_dummies exlev))ᵀ *
          Matrix.fromColumns exX (fe_dummies exlev))⁻¹) exY (Sum.inl k) := by
  have h2 : (2 : ℝ) ≠ 0 := two_ne_zero
  have hlev : ∀ l, ∃ n, exlev n = l := fun l => ⟨0, Subsingleton.elim _ _⟩
  have hSa : IsUnit ((Matrix.fromColumns exX (fe_dummies exlev))ᵀ *
      Matrix.fromColumns exX (fe_dummies exlev)).det := by
    rw [exSa_gram]
    exact smul_one_isUnit_det h2
  have hZd : IsUnit ((demean_cols exlev exX)ᵀ * demean_cols exlev exX).det := by
    rw [exX_demean, exX_gram]
    exact smul_one_isUnit_det h2
  have hAd : IsUnit ((demean_cols exlev exX)ᵀ * demean_cols exlev exX *
      ((demean_cols exlev exX)ᵀ * demean_cols exlev exX)⁻¹ * (demean_cols exlev exX)ᵀ *
      demean_cols exlev exX).det := by
    rw [exX_demean, exX_gram, smul_one_inv h2, smul_one_mul_smul_one,
      mul_inv_cancel₀ h2, one_smul, Matrix.one_mul, exX_gram]
    exact smul_one_isUnit_det h2
  have hAa : IsUnit ((Matrix.fromColumns exX (fe_dummies exlev))ᵀ *
      Matrix.fromColumns exX (fe_dummies exlev) *
      ((Matrix.fromColumns exX (fe_dummies exlev))ᵀ *
        Matrix.fromColumns exX (fe_dummies exlev))⁻¹ *
      (Matrix.fromColumns exX (fe_dummies exlev))ᵀ *
      Matrix.fromColumns exX (fe_dummies exlev)).det := by
    rw [exSa_gram, smul_one_inv h2, smul_one_mul_smul_one, mul_inv_cancel₀ h2,
      one_smul, Matrix.one_mul, exSa_gram]
    exact smul_one_isUnit_det h2
  exact ⟨hlev, hSa, hZd, hAd, hAa,
    fe_absorption_equivalence exlev exX exX exY hlev hSa hZd hAd hAa⟩

end Pyblp
